import Mathlib

/-!
# Verification of the three-sdf-loader parsing and bond-inference core

This file gives a shallow embedding, in Lean 4, of the chemistry core of the
`three-sdf-loader` repository: the SDF/MOL text normalizer, the resilient
V2000 parser (`simpleParse`), the V3000 parser (`parseV3000`), the charge
post-processor (`applyV2000ChargesFromText`), the two bond-inference engines
(`inferCoordinationBonds`, `addInferredBridgingBonds`), the chemistry-model
construction of `loadSDF` (`chemistryBonds`), and the layout/trigger logic
that gates coordination inference.

Source of truth: the newest implementation present in the repository is the
bundled build `dist/index.d.ts` (its CommonJS section), which contains the
current versions of all of the functions above, including the
`suppressOppositeChargeCoordination` option, the `originalOrder` field, the
`normalizeSDFText` helper and the index-range guard of
`addInferredBridgingBonds`.  The file `src/index.js` is an older revision
that predates several of these features; where the two differ, the bundled
build (the one matching the repository's type declarations and test suite)
is embedded, and the difference is noted at the affected definition.

Modeling conventions:
* JS strings are modeled as `List Char` (`Str` below); all inputs of interest
  are plain text, so UTF-16 subtleties do not arise.
* JS numbers are modeled as exact rationals `ℚ`.  `NaN` is modeled by
  `Option ℚ` (`none` = NaN) in the number-parsing helpers; parser embeddings
  return `none` for inputs that would produce NaN-valued records, which none
  of the inputs considered in this file do.  Scientific notation and
  `Infinity` literals never occur in the inputs in scope and are not modeled.
* Euclidean distances are compared in squared form: for nonnegative radicands
  `dist ≤ bound ↔ dist² ≤ bound²`, so `Math.hypot` never needs square roots.
* JS `Map`/`Set` objects keyed by `"min-max"` strings are modeled by lists of
  canonical `(min, max)` pairs; the string encoding of integer pairs is
  injective, so membership agrees.
-/

set_option maxRecDepth 10000

/-- `str.toUpperCase()` on a packed string (ASCII case map, sufficient for
element symbols; avoids the byte-position recursion of `String.map`). -/
def String.toUpperCase (s : String) : String := String.mk (s.data.map Char.toUpper)

namespace SDF

/-- JS strings, modeled as lists of characters. -/
abbrev Str := List Char

/-- Whitespace class used by JS `\s`, `trim`, `split(/\s+/)` (for the
character repertoire appearing in SDF text). -/
def isWs (c : Char) : Bool :=
  c = ' ' || c = '\t' || c = '\n' || c = '\r' || c = '\x0c' || c = '\x0b'

/-- `String.prototype.trimStart`. -/
def ltrim : Str → Str
  | [] => []
  | c :: rest => if isWs c then ltrim rest else c :: rest

/-- `String.prototype.trimEnd` (via reversal). -/
def rtrim (l : Str) : Str := (ltrim l.reverse).reverse

/-- `String.prototype.trim`. -/
def trimBoth (l : Str) : Str := rtrim (ltrim l)

/-- `str.split(/\s+/)` applied to an already-trimmed string: maximal runs of
non-whitespace characters.  (On a trimmed nonempty string JS produces exactly
these tokens with no empty strings; on the empty string JS produces `[""]`,
which destructures to the same `Option`-valued accesses as `[]` does here for
every use in the embedded code.) -/
def splitWs (l : Str) : List Str :=
  ((l.splitOnP (fun c => isWs c)).map id).filter (fun t => ¬ t.isEmpty)

/-- `str.split('\n')`. -/
def splitLines (l : Str) : List Str := l.splitOnP (fun c => c = '\n')

/-- `str.slice(a, b)` for `0 ≤ a ≤ b` (the only uses in the embedded code). -/
def sliceL (l : Str) (a b : Nat) : Str := (l.drop a).take (b - a)

/-- `str.startsWith(p)`. -/
def leadsWith (p l : Str) : Bool := l.take p.length = p

/-- `str.includes(sub)`: substring occurrence. -/
def containsSub (sub l : Str) : Bool := (List.range (l.length + 1)).any (fun i => leadsWith sub (l.drop i))

/-- `str.toUpperCase()` (ASCII, sufficient for element symbols). -/
def upper (l : Str) : Str := l.map Char.toUpper

/-- Digit run at the front of a string: returns the digits and the rest. -/
def takeDigits : Str → Str × Str
  | [] => ([], [])
  | c :: rest =>
    if c.isDigit then
      let (ds, r) := takeDigits rest
      (c :: ds, r)
    else ([], c :: rest)

/-- Numeric value of a digit string. -/
def digitsVal (l : Str) : Nat := l.foldl (fun n c => n * 10 + (c.toNat - '0'.toNat)) 0

/-- Parse an optional sign followed by `digits [. digits]` at the front of a
string.  Returns the parsed rational and the unconsumed rest, or `none` when
no digit is found (JS `NaN`).  This is the numeric core shared by the models
of `parseFloat` and `Number`. -/
def parseDecCore (l : Str) : Option (ℚ × Str) :=
  let (sgn, l1) : (Bool × Str) :=
    match l with
    | '-' :: r => (true, r)
    | '+' :: r => (false, r)
    | _ => (false, l)
  let (ip, l2) := takeDigits l1
  let (fp, l3) : (Str × Str) :=
    match l2 with
    | '.' :: r => takeDigits r
    | _ => ([], l2)
  if ip.isEmpty && fp.isEmpty then none
  else
    let mag : ℚ := (digitsVal ip : ℚ) + (digitsVal fp : ℚ) / ((10 : ℚ) ^ fp.length)
    some (if sgn then -mag else mag, l3)

/-- JS `parseFloat(str)`: skip leading whitespace, read the longest numeric
prefix, `NaN` (`none`) when no digits are found.  Trailing garbage ignored. -/
def parseFloatQ (l : Str) : Option ℚ := (parseDecCore (ltrim l)).map Prod.fst

/-- JS `Number(str)` (and unary `+str`): trims both ends, empty string is `0`,
otherwise the whole remaining string must be numeric, else `NaN` (`none`). -/
def jsNumber (l : Str) : Option ℚ :=
  let t := trimBoth l
  if t.isEmpty then some 0
  else match parseDecCore t with
    | some (q, []) => some q
    | _ => none

/-- `Number(...)` restricted to integral results, as used for atom indices,
bond orders, stereo flags and charges (fractional values never occur in the
inputs in scope). -/
def jsNumberInt (l : Str) : Option Int :=
  match jsNumber l with
  | some q => if q.den = 1 then some q.num else none
  | none => none

/-! ## Data model

`Atom` and `Bond` mirror the record shapes produced by the parsers:
atoms `{x, y, z, symbol, charge?}` and bonds
`{beginAtomIdx, endAtomIdx, order, stereo?, isBridge?, source?}`
(1-based atom indices, fields absent in JS modeled by defaults/`Option`). -/

structure Atom where
  x : ℚ
  y : ℚ
  z : ℚ
  symbol : String
  charge : Option Int := none
deriving DecidableEq, Repr

instance : Inhabited Atom := ⟨⟨0, 0, 0, "", none⟩⟩

structure Bond where
  beginAtomIdx : Int
  endAtomIdx : Int
  order : Int
  stereo : Int := 0
  isBridge : Bool := false
  source : Option String := none
deriving DecidableEq, Repr

instance : Inhabited Bond := ⟨⟨0, 0, 0, 0, false, none⟩⟩

/-- A parsed molecule: `{ atoms, bonds }` (the `properties` map produced by
the parsers is irrelevant to every claim and not modeled). -/
structure Mol where
  atoms : List Atom
  bonds : List Bond
deriving DecidableEq, Repr

/-- `atoms[i]` for a known-in-range access (out-of-range yields the default
atom; the embedded code only dereferences in-range indices). -/
def getAtom (atoms : List Atom) (i : Nat) : Atom := atoms.getD i default

/-- Uppercased symbol of atom `i`, as in `atoms[i].symbol.toUpperCaseCase()`. -/
def symbolUp (atoms : List Atom) (i : Nat) : String := (getAtom atoms i).symbol.toUpperCase

/-- `atom.charge ?? atom.formalCharge ?? 0` (parsed atoms never carry a
`formalCharge` field, so this is `charge ?? 0`). -/
def chargeOf (a : Atom) : Int := a.charge.getD 0

/-! ## Text normalizer

Embeds `normalizeSDFText` (dist bundle):
```js
let normalized = text.replace(/\r\n?/g, '\n');
if (normalized.charCodeAt(0) === 0xfeff) normalized = normalized.slice(1);
normalized = normalized.replace(/^(?:[ \t]*\n)+/, '');
```
-/

/-- The byte-order-mark character `U+FEFF`. -/
def bomChar : Char := '\uFEFF'

/-- `text.replace(/\r\n?/g, '\n')`: every `\r\n` pair and every lone `\r`
becomes a single `\n` (the regex scans left to right, preferring the longer
`\r\n` match). -/
def convertCR : Str → Str
  | '\r' :: '\n' :: rest => '\n' :: convertCR rest
  | '\r' :: rest => '\n' :: convertCR rest
  | c :: rest => c :: convertCR rest
  | [] => []

/-- Strip one leading byte-order-mark (`charCodeAt(0) === 0xfeff`). -/
def stripBOM (l : Str) : Str :=
  match l with
  | c :: rest => if c = bomChar then rest else c :: rest
  | [] => []

/-- Consume the `[ \t]*` part of one blank-line group. -/
def dropIndent : Str → Str
  | c :: rest => if c = ' ' || c = '\t' then dropIndent rest else c :: rest
  | [] => []

/-- Try to consume one `[ \t]*\n` group at the front. -/
def tryBlankLine (l : Str) : Option Str :=
  match dropIndent l with
  | c :: rest => if c = '\n' then some rest else none
  | [] => none

/-- Fuel-indexed driver for `replace(/^(?:[ \t]*\n)+/, '')`: greedily remove
leading blank-line groups.  Each successful group strictly shrinks the
string, so `l.length` fuel always suffices. -/
def dropBlankAux : Nat → Str → Str
  | 0, l => l
  | Nat.succ n, l =>
    match tryBlankLine l with
    | some rest => dropBlankAux n rest
    | none => l

/-- `text.replace(/^(?:[ \t]*\n)+/, '')`. -/
def dropBlankLines (l : Str) : Str := dropBlankAux l.length l

/-- `normalizeSDFText` (the `typeof text !== 'string'` guard is subsumed by
typing). -/
def normalizeSDFText (l : Str) : Str := dropBlankLines (stripBOM (convertCR l))

/-! ## V2000 parser (`simpleParse`) and charge post-processor

Embedded from the dist bundle.  The older `src/index.js` revision instead
hard-codes the counts line at line index 3 and has no
`applyV2000ChargesFromText`; the bundle locates the counts line by pattern
and decodes atom-line charge codes. -/

/-- The `^\s*-?\d+\s+-?\d+` test used by `lines.findIndex` to locate the
counts line (and by `applyV2000ChargesFromText`). -/
def countsLineTest (l : Str) : Bool :=
  let l1 := ltrim l
  let l2 := match l1 with | '-' :: r => r | _ => l1
  let (d1, r1) := takeDigits l2
  if d1.isEmpty then false
  else
    match r1 with
    | c :: rest =>
      if isWs c then
        let r2 := ltrim rest
        let r3 := match r2 with | '-' :: r => r | _ => r2
        ¬ (takeDigits r3).1.isEmpty
      else false
    | [] => false

/-- Counts extraction shared (verbatim in the source) by `simpleParse` and
`applyV2000ChargesFromText`: fixed columns 0–2 / 3–5 preferred, whitespace
fallback splitting a 6-digit concatenated token or taking tokens 0 and 1.
`none` models the non-finite case, in which both callers bail out. -/
def parseCounts (rawCounts : Str) : Option (Int × Int) :=
  let countsLine := ltrim rawCounts
  let aFW := jsNumberInt (sliceL countsLine 0 3)
  let bFW := jsNumberInt (sliceL countsLine 3 6)
  let needsFallback : Bool :=
    match aFW, bFW with
    | some a, some b => a ≤ 0 || b < 0
    | _, _ => true
  if ¬ needsFallback then
    match aFW, bFW with
    | some a, some b => some (a, b)
    | _, _ => none
  else
    let parts := splitWs (trimBoth (sliceL countsLine 0 39))
    match parts.head? with
    | some p0 =>
      if p0.length = 6 && p0.all Char.isDigit then
        some ((digitsVal (p0.take 3) : Int), (digitsVal (p0.drop 3) : Int))
      else
        match jsNumberInt p0, (parts.get? 1).bind jsNumberInt with
        | some a, some b => some (a, b)
        | _, _ => none
    | none => none

/-- The fixed-width fallback of the atom-line parse: columns 0–9 / 10–19 /
20–29 are x / y / z, columns 31–33 the symbol. -/
def atomFallback (l : Str) (symbol0 : Str) : Option Atom :=
  let lx := l.length
  match parseFloatQ (trimBoth (sliceL l 0 (min 10 lx))),
        parseFloatQ (trimBoth (sliceL l 10 (min 20 lx))),
        parseFloatQ (trimBoth (sliceL l 20 (min 30 lx))) with
  | some x, some y, some z =>
    let ss := trimBoth (sliceL l 31 (min 34 lx))
    some ⟨x, y, z, String.mk (if ss.isEmpty then symbol0 else ss), none⟩
  | _, _, _ => none

/-- One atom line of `simpleParse`: whitespace split first
(`x y z symbol ...`), fixed-width fallback when a coordinate is non-finite or
the symbol is empty.  `none` models the out-of-scope case in which the source
would push an atom with NaN coordinates. -/
def parseAtomLine (l : Str) : Option Atom :=
  let parts := splitWs (trimBoth l)
  let symbol0 := (parts.get? 3).getD []
  match (parts.get? 0).bind parseFloatQ, (parts.get? 1).bind parseFloatQ,
        (parts.get? 2).bind parseFloatQ with
  | some x, some y, some z =>
    if symbol0.isEmpty then atomFallback l symbol0
    else some ⟨x, y, z, String.mk symbol0, none⟩
  | _, _, _ => atomFallback l symbol0

/-- One bond line of `simpleParse`:
`const [a, b, orderStr, stereoStr = '0'] = l.trim().split(/\s+/)`, then
`{beginAtomIdx: Number(a), endAtomIdx: Number(b), order: Number(orderStr) || 1,
stereo: Number(stereoStr)}`.  Note the *whitespace* split of the whole line —
there is no fixed-column handling here.  `none` models NaN-indexed bonds
(out of scope). -/
def parseBondLine (l : Str) : Option Bond :=
  let tok := splitWs (trimBoth l)
  let ordv : Option Int :=
    match tok.get? 2 with
    | none => some 1
    | some s =>
      match jsNumber s with
      | none => some 1
      | some q => if q = 0 then some 1 else if q.den = 1 then some q.num else none
  match (tok.get? 0).bind jsNumberInt, (tok.get? 1).bind jsNumberInt,
        ordv, jsNumberInt (tok.getD 3 ['0']) with
  | some a, some b, some o, some st => some ⟨a, b, o, st, false, none⟩
  | _, _, _, _ => none

/-- `simpleParse` (dist bundle).  The property-block scan after `M  END` only
fills the (unmodeled) `properties` map and is omitted; `return {}` is modeled
as the empty molecule, which is how `loadSDF` destructures it. -/
def simpleParse (text : Str) : Option Mol :=
  let lines := splitLines (text.filter (fun c => c ≠ '\r'))
  match lines.findIdx? countsLineTest with
  | none => some ⟨[], []⟩
  | some ci =>
    match parseCounts (lines.getD ci []) with
    | none => some ⟨[], []⟩
    | some (natoms, nbonds) =>
      let na := natoms.toNat
      match (List.range na).mapM (fun i => parseAtomLine (lines.getD (ci + 1 + i) [])),
            (List.range nbonds.toNat).mapM
              (fun i => parseBondLine (lines.getD (ci + 1 + na + i) [])) with
      | some atoms, some bonds => some ⟨atoms, bonds⟩
      | _, _ => none

/-- MDL V2000 atom-line charge codes: 1→+3, 2→+2, 3→+1, 5→−1, 6→−2, 7→−3,
anything else→0. -/
def decodeV2000ChargeCode (code : ℚ) : Int :=
  if code = 1 then 3 else if code = 2 then 2 else if code = 3 then 1
  else if code = 5 then -1 else if code = 6 then -2 else if code = 7 then -3
  else 0

/-- The `/^\s*M\s+V30\b/` test on a single line. -/
def v30LineTest (l : Str) : Bool :=
  match ltrim l with
  | 'M' :: rest =>
    match rest with
    | c :: rest2 =>
      if isWs c then
        let r := ltrim rest2
        if leadsWith "V30".toList r then
          match r.drop 3 with
          | [] => true
          | d :: _ => ¬ (d.isAlphanum || d = '_')
        else false
      else false
    | [] => false
  | _ => false

/-- The `/^\s*M\s+V30\b/m` (multiline) test on a whole text. -/
def v30Test (text : Str) : Bool := (splitLines text).any v30LineTest

/-- The `(idx, chg)` pairs of one `M  CHG` line that pass the
`Number.isFinite` checks, in application order. -/
def mchgEntries (ln : Str) : List (Int × Int) :=
  let parts := splitWs (trimBoth ln)
  let n : Option Int :=
    match parts.get? 2 with
    | none => some 0
    | some s => jsNumberInt s
  match n with
  | none => []
  | some n =>
    if n ≤ 0 then []
    else
      (List.range n.toNat).filterMap (fun k =>
        match (parts.get? (3 + 2 * k)).bind jsNumberInt,
              (parts.get? (4 + 2 * k)).bind jsNumberInt with
        | some idx, some chg => some (idx, chg)
        | _, _ => none)

/-- One `atoms[idx - 1].charge = chg` assignment, guarded by the existence of
`atoms[idx - 1]`. -/
def applyChargePair (atoms : List Atom) (e : Int × Int) : List Atom :=
  if 1 ≤ e.1 ∧ e.1 ≤ (atoms.length : Int) then
    atoms.set (e.1 - 1).toNat { getAtom atoms (e.1 - 1).toNat with charge := some e.2 }
  else atoms

/-- Apply a list of `(idx, chg)` directive pairs in order (later assignments
to the same atom overwrite earlier ones, as JS mutation does). -/
def applyChargeEntries (atoms : List Atom) (es : List (Int × Int)) : List Atom :=
  es.foldl applyChargePair atoms

/-- Atom-line charge-code extraction of `applyV2000ChargesFromText`: fixed
columns 36–39 first, whitespace token 5 as fallback. -/
def atomLineChargeCode (l : Str) : Option ℚ :=
  let fixed := trimBoth (sliceL l 36 39)
  let viaFixed : Option ℚ := if fixed.isEmpty then none else jsNumber fixed
  match viaFixed with
  | some n => some n
  | none =>
    let parts := splitWs (trimBoth l)
    if parts.length ≥ 6 then (parts.get? 5).bind jsNumber else none

/-- Step 1 of `applyV2000ChargesFromText`: decode the inline charge code of
each atom line and assign it when non-zero. -/
def applyInlineCodes (lines : List Str) (ci : Nat) (natoms : Int)
    (atoms : List Atom) : List Atom :=
  (List.range (min natoms.toNat atoms.length)).foldl
    (fun acc i =>
      match atomLineChargeCode (lines.getD (ci + 1 + i) []) with
      | some code =>
        let charge := decodeV2000ChargeCode code
        if charge ≠ 0 then acc.set i { getAtom acc i with charge := some charge }
        else acc
      | none => acc)
    atoms

/-- `lines.findIndex((ln, idx) => idx >= start && p ln)`. -/
def findIdxFrom (lines : List Str) (start : Nat) (p : Str → Bool) : Option Nat :=
  (List.range lines.length).find? (fun i => decide (start ≤ i) && p (lines.getD i []))

/-- All `M  CHG` entries found on lines with index in `[start, stop)`. -/
def mchgEntriesBetween (lines : List Str) (start stop : Nat) : List (Int × Int) :=
  (List.range' start (stop - start)).flatMap
    (fun i =>
      let ln := lines.getD i []
      if leadsWith "M  CHG".toList ln then mchgEntries ln else [])

/-- `applyV2000ChargesFromText` (dist bundle): inline atom-line charge codes
first, then `M  CHG` directives between the bond block and `M  END`, then —
for non-standard files — `M  CHG` directives after `M  END`. -/
def applyV2000ChargesFromText (text : Str) (atoms0 : List Atom) : List Atom :=
  if atoms0.isEmpty then atoms0
  else if v30Test text then atoms0
  else
    let lines := splitLines (text.filter (fun c => c ≠ '\r'))
    match lines.findIdx? countsLineTest with
    | none => atoms0
    | some ci =>
      match parseCounts (lines.getD ci []) with
      | none => atoms0
      | some (natoms, nbonds) =>
        let atoms1 := applyInlineCodes lines ci natoms atoms0
        let bbe := ci + 1 + natoms.toNat + nbonds.toNat
        let mEnd? := findIdxFrom lines bbe (leadsWith "M  END".toList)
        let stop := mEnd?.getD lines.length
        let atoms2 := applyChargeEntries atoms1 (mchgEntriesBetween lines bbe stop)
        match mEnd? with
        | some me => applyChargeEntries atoms2 (mchgEntriesBetween lines (me + 1) lines.length)
        | none => atoms2

/-- The V2000 path of `parseSDF`: the external `sdf-parser` dependency
returns records without an `atoms` array for plain molfiles, so the internal
`simpleParse` produces the atom/bond lists and
`applyV2000ChargesFromText` then runs on the same text. -/
def parseV2000WithCharges (text : Str) : Option Mol :=
  (simpleParse text).map (fun m => ⟨applyV2000ChargesFromText text m.atoms, m.bonds⟩)

/-! ## V3000 parser (`parseV3000`)

Sequential line scan with `inAtoms` / `inBonds` flags toggled by substring
markers; atom lines may carry an inline `CHG=` token; separate
`M  V30 CHG` lines stage `(idx, charge)` pairs that are applied after the
scan. -/

structure V3State where
  inAtoms : Bool := false
  inBonds : Bool := false
  atoms : List Atom := []
  bonds : List Bond := []
  pending : List (Option Int × Option Int) := []

/-- One atom line inside the atom block (caller checked `parts.length ≥ 7`):
`[, , , symbol, x, y, z, ...rest]`, with a `CHG=<v>` token in `rest` setting
the charge (last one wins).  `none` models NaN coordinates/charges. -/
def v3ParseAtom (parts : List Str) : Option Atom :=
  match (parts.get? 4).bind jsNumber, (parts.get? 5).bind jsNumber,
        (parts.get? 6).bind jsNumber with
  | some x, some y, some z =>
    let symbol := (parts.get? 3).getD []
    match (parts.drop 7).foldlM
        (fun (c : Option Int) tok =>
          if leadsWith "CHG=".toList tok then (jsNumberInt (tok.drop 4)).map some
          else some c)
        (none : Option Int) with
    | some charge => some ⟨x, y, z, String.mk symbol, charge⟩
    | none => none
  | _, _, _ => none

/-- One bond line inside the bond block (caller checked `parts.length ≥ 6`):
`[, , , order, a, b]`. -/
def v3ParseBond (parts : List Str) : Option Bond :=
  match (parts.get? 4).bind jsNumberInt, (parts.get? 5).bind jsNumberInt,
        (parts.get? 3).bind jsNumberInt with
  | some a, some b, some o => some ⟨a, b, o, 0, false, none⟩
  | _, _, _ => none

/-- `(idx, chg)` pairs staged by one `M  V30 CHG` line (count token 3, then
pairs; no finiteness check at collection time in the source, hence the
`Option` components). -/
def v3ChgEntries (parts : List Str) : List (Option Int × Option Int) :=
  let n : Option Int :=
    match parts.get? 3 with
    | none => some 0
    | some s => jsNumberInt s
  match n with
  | none => []
  | some n =>
    (List.range n.toNat).map (fun k =>
      ((parts.get? (4 + 2 * k)).bind jsNumberInt,
       (parts.get? (5 + 2 * k)).bind jsNumberInt))

/-- Apply one staged V3000 charge pair:
`if (Number.isFinite(idx) && atoms[idx - 1]) atoms[idx - 1].charge = chg`
(the charge itself is unchecked in the source; a NaN charge is out of the
modeled scope, hence `none`). -/
def applyV3Pending (atoms : List Atom) (e : Option Int × Option Int) :
    Option (List Atom) :=
  match e.1 with
  | some idx =>
    if 1 ≤ idx ∧ idx ≤ (atoms.length : Int) then
      match e.2 with
      | some c =>
        some (atoms.set (idx - 1).toNat { getAtom atoms (idx - 1).toNat with charge := some c })
      | none => none
    else some atoms
  | none => some atoms

/-- `parseV3000` (identical in both revisions of the source, up to the
`source` field). -/
def parseV3000 (text : Str) : Option Mol := do
  let lines := splitLines text
  let st ← lines.foldlM
    (fun (st : V3State) ln => do
      if containsSub "BEGIN ATOM".toList ln then pure { st with inAtoms := true }
      else if containsSub "END ATOM".toList ln then pure { st with inAtoms := false }
      else if containsSub "BEGIN BOND".toList ln then pure { st with inBonds := true }
      else if containsSub "END BOND".toList ln then pure { st with inBonds := false }
      else
        let parts := splitWs (trimBoth ln)
        let st1 ← (if st.inAtoms ∧ leadsWith "M  V30".toList ln ∧ parts.length ≥ 7 then
            (v3ParseAtom parts).map (fun a => { st with atoms := st.atoms ++ [a] })
          else some st)
        let st2 ← (if st1.inBonds ∧ leadsWith "M  V30".toList ln ∧ parts.length ≥ 6 then
            (v3ParseBond parts).map (fun b => { st1 with bonds := st1.bonds ++ [b] })
          else some st1)
        if leadsWith "M  V30 CHG".toList ln then
          pure { st2 with pending := st2.pending ++ v3ChgEntries parts }
        else pure st2)
    {}
  let atoms ← st.pending.foldlM applyV3Pending st.atoms
  pure ⟨atoms, st.bonds⟩

/-! ## Coordination bond inference (`inferCoordinationBonds`)

Dist-bundle version, which carries the `suppressOppositeChargeCoordination`
policy (absent from the older `src/index.js` revision).  Distances are
compared in squared form: `Math.hypot(dx,dy,dz) ≤ max(cutoff, dMin·relFactor)`
holds iff `quad ≤ cutoff²` (when `cutoff ≥ 0`) or `quad ≤ dMin²·relFactor²`
(when `relFactor ≥ 0`), `quad`/`dMin²` being the squared distances — an exact
reformulation over the reals for every sign of the two knobs, since distances
are nonnegative. -/

/-- IUPAC-wide metal set (`DEFAULT_METALS`). -/
def DEFAULT_METALS : List String :=
  ["LI", "NA", "K", "RB", "CS", "FR", "BE", "MG", "CA", "SR", "BA", "RA",
   "SC", "Y", "TI", "ZR", "HF", "V", "NB", "TA", "CR", "MO", "W", "MN", "TC",
   "RE", "FE", "RU", "OS", "CO", "RH", "IR", "NI", "PD", "PT", "CU", "AG",
   "AU", "ZN", "CD", "HG", "AL", "GA", "IN", "TL", "SN", "PB", "BI", "PO",
   "FL", "LV", "NH", "MC", "LA", "CE", "PR", "ND", "PM", "SM", "EU", "GD",
   "TB", "DY", "HO", "ER", "TM", "YB", "LU", "AC", "TH", "PA", "U", "NP",
   "PU", "AM", "CM", "BK", "CF", "ES", "FM", "MD", "NO", "LR"]

/-- Transition-metal subset (`TRANSITION_METALS`), the default metal set of
`loadSDF` (`coordinationMode = 'transitionOnly'`). -/
def TRANSITION_METALS : List String :=
  ["SC", "TI", "V", "CR", "MN", "FE", "CO", "NI", "CU", "ZN",
   "Y", "ZR", "NB", "MO", "TC", "RU", "RH", "PD", "AG", "CD",
   "HF", "TA", "W", "RE", "OS", "IR", "PT", "AU", "HG"]

def DEFAULT_CUTOFF : ℚ := 3
def DEFAULT_REL_FACTOR : ℚ := 7 / 5

structure CoordOpts where
  metals : List String := DEFAULT_METALS
  cutoff : ℚ := DEFAULT_CUTOFF
  relFactor : ℚ := DEFAULT_REL_FACTOR
  suppress : Bool := true

/-- Canonical unordered key of a 1-based index pair, modeling the
`` `${Math.min(a,b)}-${Math.max(a,b)}` `` dedup strings (injective on integer
pairs, so list membership coincides with JS `Set` membership). -/
def keyOf (a b : Int) : Int × Int := (min a b, max a b)

/-- Key of a bond record. -/
def pairKey (b : Bond) : Int × Int := keyOf b.beginAtomIdx b.endAtomIdx

/-- The initial `seen` set: keys of every existing bond. -/
def initSeen (bonds : List Bond) : List (Int × Int) := bonds.map pairKey

/-- `if (seen.has(key)) return; bonds.push(nb); seen.add(key)`. -/
def pushIfNew (st : List Bond × List (Int × Int)) (nb : Bond) :
    List Bond × List (Int × Int) :=
  if pairKey nb ∈ st.2 then st else (st.1 ++ [nb], pairKey nb :: st.2)

/-- Grid cell of a coordinate triple, cell size = `cutoff`
(`Math.floor(x / cellSize)` per axis). -/
def cellOf (cutoff : ℚ) (a : Atom) : Int × Int × Int :=
  (⌊a.x / cutoff⌋, ⌊a.y / cutoff⌋, ⌊a.z / cutoff⌋)

/-- The 27 cell offsets of the 3×3×3 neighborhood, in the source's
`dx`/`dy`/`dz` loop order. -/
def offsets27 : List (Int × Int × Int) :=
  [-1, 0, 1].flatMap (fun dx =>
    [-1, 0, 1].flatMap (fun dy =>
      [-1, 0, 1].map (fun dz => ((dx : Int), (dy : Int), (dz : Int)))))

/-- `neighborIndices` at the cell of atom `mi`: for each of the 27 cells the
bucket of atom indices in that cell, in insertion (= atom) order.  The JS
`Map`-of-buckets is modeled extensionally: the bucket of a key holds exactly
the atoms whose cell equals that key, in order. -/
def neighborIdx (atoms : List Atom) (cutoff : ℚ) (mi : Nat) : List Nat :=
  let c := cellOf cutoff (getAtom atoms mi)
  offsets27.flatMap (fun o =>
    (List.range atoms.length).filter
      (fun i => cellOf cutoff (getAtom atoms i) = (c.1 + o.1, c.2.1 + o.2.1, c.2.2 + o.2.2)))

/-- Squared Euclidean distance between two atoms (`Math.hypot(dx,dy,dz)²`). -/
def quad (p q : Atom) : ℚ := (p.x - q.x) ^ 2 + (p.y - q.y) ^ 2 + (p.z - q.z) ^ 2

/-- The candidate list of metal atom `mi`: neighborhood atoms minus the metal
itself and minus hydrogens, each with its squared distance, in gathering
order (the source's `dists` array). -/
def candDists (atoms : List Atom) (cutoff : ℚ) (mi : Nat) : List (Nat × ℚ) :=
  (neighborIdx atoms cutoff mi).filterMap (fun li =>
    if li = mi then none
    else if symbolUp atoms li = "H" then none
    else some (li, quad (getAtom atoms mi) (getAtom atoms li)))

/-- `dMin²`: minimum of the squared candidate distances (the monotone image
of the source's running minimum over `Math.hypot` values). -/
def minQuad : List (Nat × ℚ) → ℚ
  | [] => 0
  | p :: rest => rest.foldl (fun m q => min m q.2) p.2

/-- Squared form of `dist ≤ max(cutoff, dMin * relFactor)` (the negation of
the source's `if (dist > threshold) return`). -/
def withinThr (q m2 cutoff rel : ℚ) : Prop :=
  (0 ≤ cutoff ∧ q ≤ cutoff ^ 2) ∨ (0 ≤ rel ∧ q ≤ m2 * rel ^ 2)

instance (q m2 cutoff rel : ℚ) : Decidable (withinThr q m2 cutoff rel) := by
  unfold withinThr; infer_instance

/-- Opposite-sign explicit charges
(`(ca > 0 && cb < 0) || (ca < 0 && cb > 0)`). -/
def oppCharge (atoms : List Atom) (mi li : Nat) : Prop :=
  (0 < chargeOf (getAtom atoms mi) ∧ chargeOf (getAtom atoms li) < 0) ∨
  (chargeOf (getAtom atoms mi) < 0 ∧ 0 < chargeOf (getAtom atoms li))

instance (atoms : List Atom) (mi li : Nat) : Decidable (oppCharge atoms mi li) := by
  unfold oppCharge; infer_instance

/-- The inferred coordination bond record
`{beginAtomIdx: mi+1, endAtomIdx: li+1, order: 0, source: 'inferredCoordination'}`. -/
def mkCoord (mi li : Nat) : Bond :=
  ⟨(mi : Int) + 1, (li : Int) + 1, 0, 0, false, some "inferredCoordination"⟩

/-- Body of the `dists.forEach` loop for one candidate of metal `mi`. -/
def coordStep (atoms : List Atom) (o : CoordOpts) (mi : Nat) (m2 : ℚ)
    (st : List Bond × List (Int × Int)) (p : Nat × ℚ) :
    List Bond × List (Int × Int) :=
  if withinThr p.2 m2 o.cutoff o.relFactor then
    if o.suppress ∧ oppCharge atoms mi p.1 then st
    else pushIfNew st (mkCoord mi p.1)
  else st

/-- Body of the `atoms.forEach` loop: skip non-metals, gather candidates and
their distances, then process each against the adaptive threshold.  The two
early returns of the source (`candidatesIdx` empty, `dists` empty) both
collapse to `candDists = []`, on which the fold is a no-op. -/
def metalPass (atoms : List Atom) (o : CoordOpts)
    (st : List Bond × List (Int × Int)) (mi : Nat) :
    List Bond × List (Int × Int) :=
  if symbolUp atoms mi ∈ o.metals then
    let cds := candDists atoms o.cutoff mi
    cds.foldl (coordStep atoms o mi (minQuad cds)) st
  else st

/-- `inferCoordinationBonds` (dist bundle), functionally: returns the mutated
bond list (the source mutates `bonds` in place and reads `atoms` only). -/
def inferCoordinationBonds (atoms : List Atom) (bonds : List Bond)
    (o : CoordOpts) : List Bond :=
  ((List.range atoms.length).foldl (metalPass atoms o) (bonds, initSeen bonds)).1

/-! ## Bridging bond inference (`addInferredBridgingBonds`)

Dist-bundle version, which range-checks bond references before the adjacency
build (`inRange`); the older `src/index.js` revision lacked the check and
would throw on an out-of-range reference. -/

/-- `isHeavy`: not hydrogen and not hidden (symbols in `hiddenSet` are stored
uppercased). -/
def isHeavy (hidden : List String) (s : String) : Prop :=
  s.toUpperCase ≠ "H" ∧ s.toUpperCase ∉ hidden

instance (hidden : List String) (s : String) : Decidable (isHeavy hidden s) := by
  unfold isHeavy; infer_instance

/-- `inRange(idx)`: a finite 1-based index into the atom list. -/
def inRangeIdx (atoms : List Atom) (k : Int) : Prop :=
  1 ≤ k ∧ k ≤ (atoms.length : Int)

instance (atoms : List Atom) (k : Int) : Decidable (inRangeIdx atoms k) := by
  unfold inRangeIdx; infer_instance

/-- What one bond contributes to the adjacency bucket of key `k`:
nothing when a reference is out of range (`if (!inRange(a) || !inRange(b))
return`), else the other endpoint for each endpoint equal to `k` (in the
source's push order: `bucketA.push(b)` then `bucketB.push(a)`). -/
def adjContrib (atoms : List Atom) (k : Int) (b : Bond) : List Int :=
  if inRangeIdx atoms b.beginAtomIdx ∧ inRangeIdx atoms b.endAtomIdx then
    (if b.beginAtomIdx = k then [b.endAtomIdx] else []) ++
    (if b.endAtomIdx = k then [b.beginAtomIdx] else [])
  else []

/-- The adjacency map, read extensionally: `adjOf atoms bonds k` is the
bucket `adj.get(k)` after the build loop, in push order.  Keys outside
`1..atoms.length` are never queried by the source. -/
def adjOf (atoms : List Atom) (bonds : List Bond) (k : Int) : List Int :=
  bonds.flatMap (adjContrib atoms k)

/-- Heavy partners of the hidden atom at 0-based index `idx`. -/
def partnersOf (atoms : List Atom) (bonds : List Bond) (hidden : List String)
    (idx : Nat) : List Int :=
  (adjOf atoms bonds ((idx : Int) + 1)).filter
    (fun p => decide (isHeavy hidden (getAtom atoms (p - 1).toNat).symbol))

/-- Unordered pairs of a list in the source's nested `m < n` loop order. -/
def pairsOf : List Int → List (Int × Int)
  | [] => []
  | x :: xs => xs.map (fun y => (x, y)) ++ pairsOf xs

/-- The inferred bridge bond record
`{beginAtomIdx: a, endAtomIdx: b, order: 0, isBridge: true,
source: 'inferredBridge'}`. -/
def mkBridge (a b : Int) : Bond := ⟨a, b, 0, 0, true, some "inferredBridge"⟩

/-- Seen-guarded push of one bridge pair. -/
def bridgeStep (st : List Bond × List (Int × Int)) (p : Int × Int) :
    List Bond × List (Int × Int) :=
  pushIfNew st (mkBridge p.1 p.2)

/-- Body of the `atoms.forEach` loop of `addInferredBridgingBonds`: only
hidden atoms are processed; fewer than two heavy partners is a no-op;
otherwise every unordered partner pair is pushed behind the seen guard.
The adjacency/partner lists come from the *input* bond list (the source
builds `adj` once, before any push). -/
def bridgePass (atoms : List Atom) (bonds : List Bond) (hidden : List String)
    (st : List Bond × List (Int × Int)) (idx : Nat) :
    List Bond × List (Int × Int) :=
  if (getAtom atoms idx).symbol.toUpperCase ∈ hidden then
    let partners := partnersOf atoms bonds hidden idx
    if partners.length < 2 then st
    else (pairsOf partners).foldl bridgeStep st
  else st

/-- `addInferredBridgingBonds` (dist bundle), functionally. -/
def addInferredBridgingBonds (atoms : List Atom) (bonds : List Bond)
    (hidden : List String) : List Bond :=
  ((List.range atoms.length).foldl (bridgePass atoms bonds hidden)
    (bonds, initSeen bonds)).1

/-! ## `loadSDF`: layout classification, inference trigger, chemistry model

Embeds the option plumbing and the bond-processing stages of `loadSDF`
(dist bundle) that sit between parsing and rendering, and the construction
of the `chemistry.bonds` array and of the per-bond render metadata. -/

/-- The `loadSDF` options relevant to the bond pipeline, with the source's
defaults.  `hidden` is the computed `hiddenSet` (uppercased `hiddenElements`
plus `'H'` unless hydrogens are shown); `inferBridging` is
`inferBridgingBonds ?? addThreeCenterBonds ?? true`. -/
structure LoadOpts where
  layout : String := "auto"
  coordinationMode : Option String := none
  autoDetectMetalBonds : Option Bool := none
  suppress : Bool := true
  cutoff : ℚ := DEFAULT_CUTOFF
  relFactor : ℚ := DEFAULT_REL_FACTOR
  hidden : List String := ["H"]
  inferBridging : Bool := true

/-- `maxZ = atoms.reduce((m, a) => Math.max(m, Math.abs(a.z)), 0)`. -/
def maxAbsZ (atoms : List Atom) : ℚ := atoms.foldl (fun m a => max m |a.z|) 0

/-- Layout classification: under `'auto'`, `'2d'` iff the maximum absolute Z
coordinate is below `1e-4`, else `'3d'`; an explicit option wins. -/
def layoutModeOf (o : LoadOpts) (atoms : List Atom) : String :=
  if o.layout = "auto" then
    (if maxAbsZ atoms < 1 / 10000 then "2d" else "3d")
  else o.layout

/-- `coordinationModeFinal`:
`coordinationMode ?? 'transitionOnly'`, forced to `'none'` by
`autoDetectMetalBonds === false` and to `'all'` by
`autoDetectMetalBonds === true` when no explicit mode is given. -/
def cmFinal (o : LoadOpts) : String :=
  if o.autoDetectMetalBonds = some false then "none"
  else if o.autoDetectMetalBonds = some true ∧ o.coordinationMode = none then "all"
  else o.coordinationMode.getD "transitionOnly"

/-- The metal set selected by the final coordination mode. -/
def metalSetOf (cm : String) : List String :=
  if cm = "none" then []
  else if cm = "all" then DEFAULT_METALS
  else TRANSITION_METALS

/-- `metalUnbonded`: the mode is not `'none'` and some atom of the metal set
takes part in no explicit bond
(`bonds.every(b => b.beginAtomIdx !== i+1 && b.endAtomIdx !== i+1)`). -/
def metalUnbondedB (o : LoadOpts) (atoms : List Atom) (bonds : List Bond) : Bool :=
  decide (cmFinal o ≠ "none") &&
  (List.range atoms.length).any (fun i =>
    decide (symbolUp atoms i ∈ metalSetOf (cmFinal o)) &&
    bonds.all (fun b =>
      decide (b.beginAtomIdx ≠ (i : Int) + 1) && decide (b.endAtomIdx ≠ (i : Int) + 1)))

/-- The guard under which `loadSDF` invokes `inferCoordinationBonds`:
`if (layoutMode === '3d' || metalUnbonded) { if (cmFinal !== 'none') … }`. -/
def coordinationRuns (o : LoadOpts) (atoms : List Atom) (bonds : List Bond) : Bool :=
  if layoutModeOf o atoms = "3d" || metalUnbondedB o atoms bonds then
    (if cmFinal o ≠ "none" then true else false)
  else false

/-- Bond list after the (conditional) coordination-inference stage. -/
def bondsAfterCoordination (o : LoadOpts) (atoms : List Atom)
    (bonds : List Bond) : List Bond :=
  if coordinationRuns o atoms bonds then
    inferCoordinationBonds atoms bonds
      ⟨metalSetOf (cmFinal o), o.cutoff, o.relFactor, o.suppress⟩
  else bonds

/-- Bond list after both inference stages (the full mutation `loadSDF`
performs on the parsed bond list before building the chemistry model). -/
def bondsAfterInference (o : LoadOpts) (atoms : List Atom)
    (bonds : List Bond) : List Bond :=
  let b1 := bondsAfterCoordination o atoms bonds
  if o.inferBridging then addInferredBridgingBonds atoms b1 o.hidden else b1

/-- A `chemistry.bonds` entry (`BondMeta` plus the extra fields the source
attaches).  The `aromatic`/`isCoordination`/`isBridge` fields are
`x || undefined` in JS, modeled as `Bool`. -/
structure ChemBond where
  index : Nat
  beginAtomIndex : Int
  endAtomIndex : Int
  order : Int
  originalOrder : Int
  aromatic : Bool
  isCoordination : Bool
  isBridge : Bool
  source : String
  stereo : Option String
deriving DecidableEq, Repr

/-- The stereo enum: `1 → 'up'`, `6 → 'down'`, truthy stereo on a single bond
→ `'wavy'`, else absent. -/
def stereoEnum (stereo order : Int) : Option String :=
  if stereo = 1 then some "up"
  else if stereo = 6 then some "down"
  else if stereo ≠ 0 ∧ order = 1 then some "wavy"
  else none

/-- `originalOrder || 1` (JS: order `0` is falsy). -/
def orderOr1 (o : Int) : Int := if o = 0 then 1 else o

/-- One entry of the `bonds.map` that builds `chemistry.bonds` (parsed bonds
always carry `beginAtomIdx`/`endAtomIdx`/`order`, so the `?? bond.a ?? 1`
fallbacks never engage). -/
def chemBondOf (i : Nat) (b : Bond) : ChemBond :=
  let originalOrder := b.order
  { index := i
    beginAtomIndex := b.beginAtomIdx - 1
    endAtomIndex := b.endAtomIdx - 1
    order := max 1 (min 4 (orderOr1 originalOrder))
    originalOrder := originalOrder
    aromatic := originalOrder = 4
    isCoordination := originalOrder = 0
    isBridge := b.isBridge
    source := b.source.getD "molfile"
    stereo := stereoEnum b.stereo b.order }

/-- The `chemistry.bonds` array of the load result. -/
def chemistryBondsOf (bonds : List Bond) : List ChemBond :=
  bonds.enum.map (fun p => chemBondOf p.1 p.2)

/-- The chemistry model `loadSDF` exposes (`chemistry.bonds` plus the atom
count), for a parsed molecule under the given options. -/
def chemistryModel (o : LoadOpts) (m : Mol) : List ChemBond × Nat :=
  (chemistryBondsOf (bondsAfterInference o m.atoms m.bonds), m.atoms.length)

/-- The render-path order normalization of one bond
(`let order = bond.order ?? 1; if (order < 1 || order > 3) order = 1`). -/
def renderOrder (raw : Int) : Int := if raw < 1 ∨ raw > 3 then 1 else raw

/-- The per-bond metadata `loadSDF` attaches to rendered bond meshes
(`bondMeta`), restricted to the order fields the claims are about. -/
def renderBondMeta (b : Bond) : Int × Int := (renderOrder b.order, b.order)

/-- Some bond of `l` connects the unordered index pair `{a, b}`. -/
def hasPair (l : List Bond) (a b : Int) : Prop :=
  ∃ bd ∈ l, pairKey bd = keyOf a b

instance (l : List Bond) (a b : Int) : Decidable (hasPair l a b) := by
  unfold hasPair; infer_instance

/-! ## State lemmas for the seen-guarded push folds

Both inference engines thread a state `(bonds, seen)` through folds whose
every step either leaves the state unchanged or performs a seen-guarded
push.  The lemmas below capture the consequences: the bond list only grows
at the tail, the `seen` set only grows, every bond's key is in `seen`, every
`seen` key is realized by some bond, and the appended suffix has pairwise
distinct keys, none of which duplicates an input key. -/

/-- Engine state: the bond list and the `seen` key set. -/
abbrev BState := List Bond × List (Int × Int)

/-- Every bond key of the state is in its `seen` set. -/
def KeysIn (st : BState) : Prop := ∀ b ∈ st.1, pairKey b ∈ st.2

/-- Every `seen` key of the state is realized by one of its bonds. -/
def Cover (st : BState) : Prop := ∀ k ∈ st.2, ∃ b ∈ st.1, pairKey b = k

/-- Frame invariant relative to the engine's input bond list: the input is an
unchanged prefix, and the appended suffix has pairwise distinct keys, all new
relative to the input. -/
def FrameInv (bonds0 : List Bond) (st : BState) : Prop :=
  KeysIn st ∧
  ∃ app, st.1 = bonds0 ++ app ∧ (app.map pairKey).Nodup ∧
    ∀ b ∈ app, pairKey b ∉ bonds0.map pairKey

/-- A fold step that either keeps the state or performs a guarded push. -/
def StepLike {α : Type} (f : BState → α → BState) : Prop :=
  ∀ st x, f st x = st ∨ ∃ nb, f st x = pushIfNew st nb

/-! ## Spec-side wording of the coordination trigger

For the trigger claim, this is the predicate in the specification's words:
inference runs iff the coordination policy is not disabled and either the
layout is classified 3-D (maximum absolute Z at least the epsilon `1e-4`) or
some atom of the metal set takes part in no explicit bond.  It is compared
against the embedded `coordinationRuns` guard below. -/
def specTrigger (o : LoadOpts) (atoms : List Atom) (bonds : List Bond) : Prop :=
  cmFinal o ≠ "none" ∧
  ((1 / 10000 : ℚ) ≤ maxAbsZ atoms ∨
    ∃ i, i < atoms.length ∧ symbolUp atoms i ∈ metalSetOf (cmFinal o) ∧
      ∀ b ∈ bonds, b.beginAtomIdx ≠ (i : Int) + 1 ∧ b.endAtomIdx ≠ (i : Int) + 1)

/-! ## Concrete fixtures used by the claims -/

/-- A compact atom line accepted by `simpleParse`'s whitespace path. -/
def c1AtomLine : String := "0 0 0 C"

/-- A 100-atom V2000 record whose single bond line writes the indices 54 and
100 in concatenated fixed 3-column fields — the literal bond line of the
fixed-width regression scenario: `" 54100  1  0  0  0  0"`. -/
def c1Text : Str :=
  (String.intercalate "\n"
    (["c1", "  Demo", "", "100  1  0  0  0  0              0 V2000"]
      ++ List.replicate 100 c1AtomLine
      ++ [" 54100  1  0  0  0  0", "M  END"])).toList

/-- A 3-atom record with one valid bond `1 2` and one out-of-range bond
`1 99` (the repository's own malformed-input fixture). -/
def c2Text : Str :=
"mixed
  Test

  3  2  0  0  0  0              0 V2000
    0.0000    0.0000    0.0000 C   0  0  0  0  0  0  0  0  0  0  0  0
    1.0000    0.0000    0.0000 O   0  0  0  0  0  0  0  0  0  0  0  0
    0.5000    1.0000    0.0000 N   0  0  0  0  0  0  0  0  0  0  0  0
  1  2  1  0
  1 99  1  0
M  END".toList

/-- A 1-atom record with an inline atom-line charge code 5 (→ −1) *and* a
conflicting `M  CHG` directive assigning +2 to the same atom. -/
def c6Text : Str :=
"chg
  T

  1  0  0  0  0  0              0 V2000
    0.0000    0.0000    0.0000 C   0  5  0  0  0  0  0  0  0  0  0  0
M  CHG  1   1   2
M  END".toList

/-- The same record without the directive (the inline code alone governs). -/
def c6TextNoDir : Str :=
"chg
  T

  1  0  0  0  0  0              0 V2000
    0.0000    0.0000    0.0000 C   0  5  0  0  0  0  0  0  0  0  0  0
M  END".toList

/-- A V3000 record with an inline `CHG=-1` token on the atom line and a
conflicting `M  V30 CHG` directive assigning +2 to the same atom. -/
def c6V3Text : Str :=
"v3
  demo
  0  0  0  0  0  0              0 V3000
M  V30 BEGIN CTAB
M  V30 COUNTS 1 0 0 0 0
M  V30 BEGIN ATOM
M  V30 1 C 0 0 0 0 CHG=-1
M  V30 END ATOM
M  V30 BEGIN BOND
M  V30 END BOND
M  V30 CHG 1 1 2
M  V30 END CTAB
M  END".toList

/-- Na(+1) and Cl(−1), 2.5 length units apart along the Z axis (a 3-D
layout), no explicit bonds — the opposite-charge ion-pair scenario. -/
def naclAtoms : List Atom := [⟨0, 0, 0, "Na", some 1⟩, ⟨0, 0, 5 / 2, "Cl", some (-1)⟩]

/-- A lone metal (Fe) 4.0 length units from a lone carbon, uncharged. -/
def feC : List Atom := [⟨0, 0, 0, "Fe", none⟩, ⟨4, 0, 0, "C", none⟩]

/-- Fe(+1) and O(−1), 2.5 length units apart — a candidate within the
adaptive threshold that the default charge policy suppresses. -/
def feO : List Atom := [⟨0, 0, 0, "Fe", some 1⟩, ⟨5 / 2, 0, 0, "O", some (-1)⟩]

/-- A boron atom bonded twice (duplicate bond records) to a hydrogen. -/
def dupAtoms : List Atom := [⟨0, 0, 0, "B", none⟩, ⟨1, 0, 0, "H", none⟩]

/-- The duplicated `1–2` bond list. -/
def dupBonds : List Bond := [⟨1, 2, 1, 0, false, none⟩, ⟨1, 2, 1, 0, false, none⟩]

theorem pushIfNew_cases (st : BState) (nb : Bond) :
    (pairKey nb ∈ st.2 ∧ pushIfNew st nb = st) ∨
    (pairKey nb ∉ st.2 ∧ pushIfNew st nb = (st.1 ++ [nb], pairKey nb :: st.2)) := by
  unfold pushIfNew
  by_cases h : pairKey nb ∈ st.2 <;> simp [h]

theorem pushIfNew_bonds_sub {st : BState} {nb b : Bond} (h : b ∈ st.1) :
    b ∈ (pushIfNew st nb).1 := by
  rcases pushIfNew_cases st nb with ⟨_, he⟩ | ⟨_, he⟩ <;> rw [he]
  · exact h
  · simp only [List.mem_append]; exact Or.inl h

theorem pushIfNew_seen_sub (st : BState) (nb : Bond) : st.2 ⊆ (pushIfNew st nb).2 := by
  rcases pushIfNew_cases st nb with ⟨_, he⟩ | ⟨_, he⟩ <;> rw [he]
  · exact fun _ h => h
  · exact fun k hk => List.mem_cons_of_mem _ hk

theorem pushIfNew_keysIn {st : BState} (nb : Bond) (h : KeysIn st) :
    KeysIn (pushIfNew st nb) := by
  rcases pushIfNew_cases st nb with ⟨_, he⟩ | ⟨_, he⟩ <;> rw [he]
  · exact h
  · intro b hb
    rcases List.mem_append.mp hb with hb | hb
    · exact List.mem_cons_of_mem _ (h b hb)
    · simp only [List.mem_singleton] at hb
      subst hb; exact List.mem_cons_self _ _

theorem pushIfNew_cover {st : BState} (nb : Bond) (h : Cover st) :
    Cover (pushIfNew st nb) := by
  rcases pushIfNew_cases st nb with ⟨_, he⟩ | ⟨_, he⟩ <;> rw [he]
  · exact h
  · intro k hk
    rcases List.mem_cons.mp hk with hk | hk
    · exact ⟨nb, by simp, hk.symm⟩
    · rcases h k hk with ⟨b, hb, hbk⟩
      exact ⟨b, by simp [hb], hbk⟩

theorem pushIfNew_frame {bonds0 : List Bond} {st : BState} (nb : Bond)
    (h : FrameInv bonds0 st) : FrameInv bonds0 (pushIfNew st nb) := by
  obtain ⟨hkeys, app, happ, hnd, hnew⟩ := h
  refine ⟨pushIfNew_keysIn nb hkeys, ?_⟩
  rcases pushIfNew_cases st nb with ⟨_, he⟩ | ⟨hnotin, he⟩
  · rw [he]; exact ⟨app, happ, hnd, hnew⟩
  · rw [he]
    refine ⟨app ++ [nb], ?_, ?_, ?_⟩
    · show st.1 ++ [nb] = bonds0 ++ (app ++ [nb])
      rw [happ, List.append_assoc]
    · rw [show (app ++ [nb]).map pairKey = app.map pairKey ++ [pairKey nb] by
        rw [List.map_append, List.map_singleton]]
      rw [List.nodup_append]
      refine ⟨hnd, List.nodup_singleton _, ?_⟩
      intro k hk hk1
      simp only [List.mem_singleton] at hk1
      subst hk1
      rcases List.mem_map.mp hk with ⟨b, hb, hbk⟩
      exact hnotin (hbk ▸ hkeys b (by rw [happ]; exact List.mem_append_right _ hb))
    · intro b hb
      rcases List.mem_append.mp hb with hb | hb
      · exact hnew b hb
      · simp only [List.mem_singleton] at hb
        subst hb
        intro hmem
        rcases List.mem_map.mp hmem with ⟨b0, hb0, hbk⟩
        exact hnotin (hbk ▸ hkeys b0 (by rw [happ]; exact List.mem_append_left _ hb0))

theorem stepLike_bonds_sub {α : Type} {f : BState → α → BState}
    (hf : StepLike f) {st : BState} {b : Bond} (x : α) (h : b ∈ st.1) :
    b ∈ (f st x).1 := by
  rcases hf st x with he | ⟨nb, he⟩ <;> rw [he]
  · exact h
  · exact pushIfNew_bonds_sub h

theorem stepLike_seen_sub {α : Type} {f : BState → α → BState}
    (hf : StepLike f) (st : BState) (x : α) : st.2 ⊆ (f st x).2 := by
  rcases hf st x with he | ⟨nb, he⟩ <;> rw [he]
  · exact fun _ h => h
  · exact pushIfNew_seen_sub st nb

theorem stepLike_keysIn {α : Type} {f : BState → α → BState}
    (hf : StepLike f) {st : BState} (x : α) (h : KeysIn st) : KeysIn (f st x) := by
  rcases hf st x with he | ⟨nb, he⟩ <;> rw [he]
  · exact h
  · exact pushIfNew_keysIn nb h

theorem stepLike_cover {α : Type} {f : BState → α → BState}
    (hf : StepLike f) {st : BState} (x : α) (h : Cover st) : Cover (f st x) := by
  rcases hf st x with he | ⟨nb, he⟩ <;> rw [he]
  · exact h
  · exact pushIfNew_cover nb h

theorem stepLike_frame {α : Type} {f : BState → α → BState}
    (hf : StepLike f) {bonds0 : List Bond} {st : BState} (x : α)
    (h : FrameInv bonds0 st) : FrameInv bonds0 (f st x) := by
  rcases hf st x with he | ⟨nb, he⟩ <;> rw [he]
  · exact h
  · exact pushIfNew_frame nb h

theorem foldl_bonds_sub {α : Type} {f : BState → α → BState}
    (hf : StepLike f) {b : Bond} :
    ∀ (l : List α) (st : BState), b ∈ st.1 → b ∈ (l.foldl f st).1 := by
  intro l
  induction l with
  | nil => intro st h; exact h
  | cons x xs ih => intro st h; exact ih _ (stepLike_bonds_sub hf x h)

theorem foldl_seen_sub {α : Type} {f : BState → α → BState}
    (hf : StepLike f) :
    ∀ (l : List α) (st : BState), st.2 ⊆ (l.foldl f st).2 := by
  intro l
  induction l with
  | nil => intro st; exact fun _ h => h
  | cons x xs ih =>
    intro st
    exact fun k hk => ih (f st x) (stepLike_seen_sub hf st x hk)

theorem foldl_keysIn {α : Type} {f : BState → α → BState}
    (hf : StepLike f) :
    ∀ (l : List α) (st : BState), KeysIn st → KeysIn (l.foldl f st) := by
  intro l
  induction l with
  | nil => intro st h; exact h
  | cons x xs ih => intro st h; exact ih _ (stepLike_keysIn hf x h)

theorem foldl_cover {α : Type} {f : BState → α → BState}
    (hf : StepLike f) :
    ∀ (l : List α) (st : BState), Cover st → Cover (l.foldl f st) := by
  intro l
  induction l with
  | nil => intro st h; exact h
  | cons x xs ih => intro st h; exact ih _ (stepLike_cover hf x h)

theorem foldl_frame {α : Type} {f : BState → α → BState}
    (hf : StepLike f) {bonds0 : List Bond} :
    ∀ (l : List α) (st : BState), FrameInv bonds0 st → FrameInv bonds0 (l.foldl f st) := by
  intro l
  induction l with
  | nil => intro st h; exact h
  | cons x xs ih => intro st h; exact ih _ (stepLike_frame hf x h)

/-- Generic fold preservation of an arbitrary state property. -/
theorem foldl_pres {α β : Type} {g : β → α → β} {P : β → Prop}
    (hg : ∀ st x, P st → P (g st x)) :
    ∀ (l : List α) (st : β), P st → P (l.foldl g st) := by
  intro l
  induction l with
  | nil => intro st h; exact h
  | cons x xs ih => intro st h; exact ih _ (hg st x h)

theorem stepLike_coordStep (atoms : List Atom) (o : CoordOpts) (mi : Nat) (m2 : ℚ) :
    StepLike (coordStep atoms o mi m2) := by
  intro st p
  unfold coordStep
  by_cases hw : withinThr p.2 m2 o.cutoff o.relFactor
  · by_cases hs : (o.suppress = true ∧ oppCharge atoms mi p.1)
    · left; simp [hw, hs]
    · right; exact ⟨mkCoord mi p.1, by simp [hw, hs]⟩
  · left; simp [hw]

theorem stepLike_bridgeStep : StepLike bridgeStep := by
  intro st p
  right
  exact ⟨mkBridge p.1 p.2, rfl⟩

/-- The state produced by one metal pass is reachable from the input state by
guarded pushes, so every preserved property survives it. -/
theorem metalPass_pres {P : BState → Prop}
    (hstep : ∀ {α : Type} (f : BState → α → BState), StepLike f →
      ∀ (l : List α) (st : BState), P st → P (l.foldl f st))
    (atoms : List Atom) (o : CoordOpts) (st : BState) (mi : Nat)
    (h : P st) : P (metalPass atoms o st mi) := by
  unfold metalPass
  by_cases hm : symbolUp atoms mi ∈ o.metals
  · simp only [hm, if_pos]
    exact hstep _ (stepLike_coordStep atoms o mi _) _ st h
  · simp [hm, h]

theorem bridgePass_pres {P : BState → Prop}
    (hstep : ∀ {α : Type} (f : BState → α → BState), StepLike f →
      ∀ (l : List α) (st : BState), P st → P (l.foldl f st))
    (atoms : List Atom) (bonds : List Bond) (hidden : List String)
    (st : BState) (idx : Nat)
    (h : P st) : P (bridgePass atoms bonds hidden st idx) := by
  unfold bridgePass
  by_cases hm : (getAtom atoms idx).symbol.toUpperCase ∈ hidden
  · simp only [hm, if_pos]
    by_cases hl : (partnersOf atoms bonds hidden idx).length < 2
    · simp [hl, h]
    · simp only [hl, if_neg, if_false]
      exact hstep _ stepLike_bridgeStep _ st h
  · simp [hm, h]

theorem metalPass_cover (atoms : List Atom) (o : CoordOpts) {st : BState}
    (mi : Nat) (h : Cover st) : Cover (metalPass atoms o st mi) :=
  metalPass_pres (fun f hf l st h => foldl_cover hf l st h) atoms o st mi h

theorem metalPass_seen_sub (atoms : List Atom) (o : CoordOpts) (st : BState)
    (mi : Nat) : st.2 ⊆ (metalPass atoms o st mi).2 := by
  intro k hk
  exact metalPass_pres (P := fun s => k ∈ s.2)
    (fun f hf l st h => foldl_seen_sub hf l st h) atoms o st mi hk

theorem metalPass_bonds_sub (atoms : List Atom) (o : CoordOpts) {st : BState}
    {b : Bond} (mi : Nat) (h : b ∈ st.1) : b ∈ (metalPass atoms o st mi).1 :=
  metalPass_pres (P := fun s => b ∈ s.1)
    (fun f hf l st h => foldl_bonds_sub hf l st h) atoms o st mi h

theorem metalPass_frame (atoms : List Atom) (o : CoordOpts) {bonds0 : List Bond}
    {st : BState} (mi : Nat) (h : FrameInv bonds0 st) :
    FrameInv bonds0 (metalPass atoms o st mi) :=
  metalPass_pres (fun f hf l st h => foldl_frame hf l st h) atoms o st mi h

theorem bridgePass_cover (atoms : List Atom) (bonds : List Bond)
    (hidden : List String) {st : BState} (idx : Nat) (h : Cover st) :
    Cover (bridgePass atoms bonds hidden st idx) :=
  bridgePass_pres (fun f hf l st h => foldl_cover hf l st h) atoms bonds hidden st idx h

theorem bridgePass_seen_sub (atoms : List Atom) (bonds : List Bond)
    (hidden : List String) (st : BState) (idx : Nat) :
    st.2 ⊆ (bridgePass atoms bonds hidden st idx).2 := by
  intro k hk
  exact bridgePass_pres (P := fun s => k ∈ s.2)
    (fun f hf l st h => foldl_seen_sub hf l st h) atoms bonds hidden st idx hk

theorem bridgePass_bonds_sub (atoms : List Atom) (bonds : List Bond)
    (hidden : List String) {st : BState} {b : Bond} (idx : Nat)
    (h : b ∈ st.1) : b ∈ (bridgePass atoms bonds hidden st idx).1 :=
  bridgePass_pres (P := fun s => b ∈ s.1)
    (fun f hf l st h => foldl_bonds_sub hf l st h) atoms bonds hidden st idx h

theorem bridgePass_frame (atoms : List Atom) (bonds : List Bond)
    (hidden : List String) {bonds0 : List Bond} {st : BState} (idx : Nat)
    (h : FrameInv bonds0 st) :
    FrameInv bonds0 (bridgePass atoms bonds hidden st idx) :=
  bridgePass_pres (fun f hf l st h => foldl_frame hf l st h) atoms bonds hidden st idx h

/-- The state every engine starts from satisfies the frame invariant and the
cover property. -/
theorem frame_init (bonds : List Bond) : FrameInv bonds (bonds, initSeen bonds) := by
  refine ⟨?_, [], by simp, by simp, by simp⟩
  intro b hb
  exact List.mem_map.mpr ⟨b, hb, rfl⟩

theorem cover_init (bonds : List Bond) : Cover (bonds, initSeen bonds) := by
  intro k hk
  rcases List.mem_map.mp hk with ⟨b, hb, hbk⟩
  exact ⟨b, hb, hbk⟩

/-! ## Soundness and completeness of coordination inference

Soundness: every bond of the output that is not an input bond is an inferred
coordination bond of some metal `mi` to a candidate `li` that passed the
adaptive threshold and the charge policy, and whose pair was not already
bonded.  Completeness: every such candidate pair is connected in the output
(either it already was, or the pass added it). -/

theorem coordFold_sound (atoms : List Atom) (o : CoordOpts) (mi : Nat) (m2 : ℚ) :
    ∀ (cds : List (Nat × ℚ)) (st : BState) (b : Bond),
      b ∈ (cds.foldl (coordStep atoms o mi m2) st).1 →
      b ∈ st.1 ∨ ∃ li q, (li, q) ∈ cds ∧ withinThr q m2 o.cutoff o.relFactor ∧
        ¬(o.suppress = true ∧ oppCharge atoms mi li) ∧ b = mkCoord mi li ∧
        pairKey b ∉ st.2 := by
  intro cds
  induction cds with
  | nil => intro st b h; exact Or.inl h
  | cons p rest ih =>
    intro st b h
    simp only [List.foldl_cons] at h
    by_cases hw : withinThr p.2 m2 o.cutoff o.relFactor
    · by_cases hs : (o.suppress = true ∧ oppCharge atoms mi p.1)
      · have hstep : coordStep atoms o mi m2 st p = st := by
          unfold coordStep; simp [hw, hs]
        rw [hstep] at h
        rcases ih st b h with h1 | ⟨li, q, hmem, h2⟩
        · exact Or.inl h1
        · exact Or.inr ⟨li, q, List.mem_cons_of_mem _ hmem, h2⟩
      · have hstep : coordStep atoms o mi m2 st p = pushIfNew st (mkCoord mi p.1) := by
          unfold coordStep; simp [hw, hs]
        rw [hstep] at h
        rcases pushIfNew_cases st (mkCoord mi p.1) with ⟨_, he⟩ | ⟨hnin, he⟩
        · rw [he] at h
          rcases ih st b h with h1 | ⟨li, q, hmem, h2⟩
          · exact Or.inl h1
          · exact Or.inr ⟨li, q, List.mem_cons_of_mem _ hmem, h2⟩
        · rw [he] at h
          rcases ih _ b h with h1 | ⟨li, q, hmem, h2, h3, h4, h5⟩
          · rcases List.mem_append.mp h1 with h1 | h1
            · exact Or.inl h1
            · simp only [List.mem_singleton] at h1
              subst h1
              refine Or.inr ⟨p.1, p.2, ?_, hw, hs, rfl, hnin⟩
              rw [Prod.mk.eta]
              exact List.mem_cons_self _ _
          · refine Or.inr ⟨li, q, List.mem_cons_of_mem _ hmem, h2, h3, h4, ?_⟩
            intro hmem2
            exact h5 (List.mem_cons_of_mem _ hmem2)
    · have hstep : coordStep atoms o mi m2 st p = st := by
        unfold coordStep; simp [hw]
      rw [hstep] at h
      rcases ih st b h with h1 | ⟨li, q, hmem, h2⟩
      · exact Or.inl h1
      · exact Or.inr ⟨li, q, List.mem_cons_of_mem _ hmem, h2⟩

theorem metalFold_sound (atoms : List Atom) (o : CoordOpts) :
    ∀ (l : List Nat) (st : BState) (b : Bond),
      b ∈ (l.foldl (metalPass atoms o) st).1 →
      b ∈ st.1 ∨ ∃ mi, mi ∈ l ∧ symbolUp atoms mi ∈ o.metals ∧ ∃ li q,
        (li, q) ∈ candDists atoms o.cutoff mi ∧
        withinThr q (minQuad (candDists atoms o.cutoff mi)) o.cutoff o.relFactor ∧
        ¬(o.suppress = true ∧ oppCharge atoms mi li) ∧ b = mkCoord mi li ∧
        pairKey b ∉ st.2 := by
  intro l
  induction l with
  | nil => intro st b h; exact Or.inl h
  | cons mi0 rest ih =>
    intro st b h
    simp only [List.foldl_cons] at h
    rcases ih _ b h with h1 | ⟨mi, hmi, hmet, li, q, hc, hw, hs, hb, hnin⟩
    · by_cases hm : symbolUp atoms mi0 ∈ o.metals
      · have hpass : metalPass atoms o st mi0 =
            (candDists atoms o.cutoff mi0).foldl
              (coordStep atoms o mi0 (minQuad (candDists atoms o.cutoff mi0))) st := by
          unfold metalPass; simp [hm]
        rw [hpass] at h1
        rcases coordFold_sound atoms o mi0 _ _ st b h1 with h2 | ⟨li, q, hc, hw, hs, hb, hnin⟩
        · exact Or.inl h2
        · exact Or.inr ⟨mi0, List.mem_cons_self _ _, hm, li, q, hc, hw, hs, hb, hnin⟩
      · have hpass : metalPass atoms o st mi0 = st := by unfold metalPass; simp [hm]
        rw [hpass] at h1
        exact Or.inl h1
    · refine Or.inr ⟨mi, List.mem_cons_of_mem _ hmi, hmet, li, q, hc, hw, hs, hb, ?_⟩
      intro h2
      exact hnin (metalPass_seen_sub atoms o st mi0 h2)

theorem inferCoordination_sound (atoms : List Atom) (bonds : List Bond)
    (o : CoordOpts) (b : Bond) (h : b ∈ inferCoordinationBonds atoms bonds o) :
    b ∈ bonds ∨ ∃ mi li q, mi < atoms.length ∧ symbolUp atoms mi ∈ o.metals ∧
      (li, q) ∈ candDists atoms o.cutoff mi ∧
      withinThr q (minQuad (candDists atoms o.cutoff mi)) o.cutoff o.relFactor ∧
      ¬(o.suppress = true ∧ oppCharge atoms mi li) ∧ b = mkCoord mi li ∧
      ¬ hasPair bonds ((mi : Int) + 1) ((li : Int) + 1) := by
  unfold inferCoordinationBonds at h
  rcases metalFold_sound atoms o _ _ b h with h1 | ⟨mi, hmi, hmet, li, q, hc, hw, hs, hb, hnin⟩
  · exact Or.inl h1
  · refine Or.inr ⟨mi, li, q, List.mem_range.mp hmi, hmet, hc, hw, hs, hb, ?_⟩
    rintro ⟨b0, hb0, hb0k⟩
    apply hnin
    refine List.mem_map.mpr ⟨b0, hb0, ?_⟩
    rw [hb0k, hb]
    rfl

theorem coordFold_complete (atoms : List Atom) (o : CoordOpts) (mi : Nat) (m2 : ℚ) :
    ∀ (cds : List (Nat × ℚ)) (st : BState), Cover st →
      ∀ li q, (li, q) ∈ cds → withinThr q m2 o.cutoff o.relFactor →
      ¬(o.suppress = true ∧ oppCharge atoms mi li) →
      ∃ b ∈ (cds.foldl (coordStep atoms o mi m2) st).1,
        pairKey b = keyOf ((mi : Int) + 1) ((li : Int) + 1) := by
  intro cds
  induction cds with
  | nil => intro st _ li q h _ _; exact absurd h (List.not_mem_nil _)
  | cons p rest ih =>
    intro st hcov li q hmem hw hs
    simp only [List.foldl_cons]
    rcases List.mem_cons.mp hmem with heq | hmem'
    · subst heq
      have hstep : coordStep atoms o mi m2 st (li, q) = pushIfNew st (mkCoord mi li) := by
        unfold coordStep; simp only at hw hs ⊢; simp [hw, hs]
      rw [hstep]
      rcases pushIfNew_cases st (mkCoord mi li) with ⟨hin, he⟩ | ⟨_, he⟩
      · rw [he]
        rcases hcov _ hin with ⟨b, hb, hbk⟩
        exact ⟨b, foldl_bonds_sub (stepLike_coordStep atoms o mi m2) rest st hb, hbk⟩
      · rw [he]
        refine ⟨mkCoord mi li, ?_, rfl⟩
        refine foldl_bonds_sub (stepLike_coordStep atoms o mi m2) rest _ ?_
        exact List.mem_append_right _ (List.mem_singleton_self _)
    · exact ih (coordStep atoms o mi m2 st p)
        (stepLike_cover (stepLike_coordStep atoms o mi m2) p hcov) li q hmem' hw hs

theorem metalFold_complete (atoms : List Atom) (o : CoordOpts) :
    ∀ (l : List Nat) (st : BState), Cover st →
      ∀ mi li q, mi ∈ l → symbolUp atoms mi ∈ o.metals →
      (li, q) ∈ candDists atoms o.cutoff mi →
      withinThr q (minQuad (candDists atoms o.cutoff mi)) o.cutoff o.relFactor →
      ¬(o.suppress = true ∧ oppCharge atoms mi li) →
      ∃ b ∈ (l.foldl (metalPass atoms o) st).1,
        pairKey b = keyOf ((mi : Int) + 1) ((li : Int) + 1) := by
  intro l
  induction l with
  | nil => intro st _ mi li q h; exact absurd h (List.not_mem_nil _)
  | cons mi0 rest ih =>
    intro st hcov mi li q hmem hmet hc hw hs
    simp only [List.foldl_cons]
    by_cases heq : mi = mi0
    · subst heq
      have hpass : metalPass atoms o st mi =
          (candDists atoms o.cutoff mi).foldl
            (coordStep atoms o mi (minQuad (candDists atoms o.cutoff mi))) st := by
        unfold metalPass; simp [hmet]
      rcases coordFold_complete atoms o mi (minQuad (candDists atoms o.cutoff mi))
        (candDists atoms o.cutoff mi) st hcov li q hc hw hs with ⟨b, hb, hbk⟩
      refine ⟨b, ?_, hbk⟩
      refine foldl_pres (P := fun (s : BState) => b ∈ s.1)
        (fun st x h => metalPass_bonds_sub atoms o x h) rest _ ?_
      rw [hpass]
      exact hb
    · rcases List.mem_cons.mp hmem with h' | h'
      · exact absurd h' heq
      · exact ih (metalPass atoms o st mi0) (metalPass_cover atoms o mi0 hcov)
          mi li q h' hmet hc hw hs

theorem inferCoordination_complete (atoms : List Atom) (bonds : List Bond)
    (o : CoordOpts) (mi li : Nat) (q : ℚ)
    (hmi : mi < atoms.length) (hmet : symbolUp atoms mi ∈ o.metals)
    (hc : (li, q) ∈ candDists atoms o.cutoff mi)
    (hw : withinThr q (minQuad (candDists atoms o.cutoff mi)) o.cutoff o.relFactor)
    (hs : ¬(o.suppress = true ∧ oppCharge atoms mi li)) :
    hasPair (inferCoordinationBonds atoms bonds o) ((mi : Int) + 1) ((li : Int) + 1) := by
  unfold inferCoordinationBonds hasPair
  exact metalFold_complete atoms o _ _ (cover_init bonds) mi li q
    (List.mem_range.mpr hmi) hmet hc hw hs

/-- Membership in the candidate list decodes to the gathering conditions:
not the metal itself, not hydrogen, distance = squared metal–ligand
distance, and cell in the 3×3×3 neighborhood. -/
theorem candDists_mem {atoms : List Atom} {cutoff : ℚ} {mi li : Nat} {q : ℚ}
    (h : (li, q) ∈ candDists atoms cutoff mi) :
    li ≠ mi ∧ symbolUp atoms li ≠ "H" ∧
    q = quad (getAtom atoms mi) (getAtom atoms li) ∧
    li ∈ neighborIdx atoms cutoff mi := by
  unfold candDists at h
  rcases List.mem_filterMap.mp h with ⟨a, ha, hfa⟩
  by_cases h1 : a = mi
  · simp [h1] at hfa
  · by_cases h2 : symbolUp atoms a = "H"
    · simp [h1, h2] at hfa
    · simp only [h1, h2, if_neg, if_false, ite_false, Option.some.injEq] at hfa
      have : a = li ∧ quad (getAtom atoms mi) (getAtom atoms a) = q := by
        have := hfa
        simp only [if_neg h1, if_neg h2, Option.some.injEq, Prod.mk.injEq] at this
        exact this
      obtain ⟨hal, haq⟩ := this
      subst hal
      exact ⟨h1, h2, haq.symm, ha⟩

/-! ## Soundness of bridging inference -/

theorem bridgeFold_sound :
    ∀ (ps : List (Int × Int)) (st : BState) (b : Bond),
      b ∈ (ps.foldl bridgeStep st).1 →
      b ∈ st.1 ∨ ∃ p ∈ ps, b = mkBridge p.1 p.2 ∧ pairKey b ∉ st.2 := by
  intro ps
  induction ps with
  | nil => intro st b h; exact Or.inl h
  | cons p rest ih =>
    intro st b h
    simp only [List.foldl_cons] at h
    have hstep : bridgeStep st p = pushIfNew st (mkBridge p.1 p.2) := rfl
    rw [hstep] at h
    rcases pushIfNew_cases st (mkBridge p.1 p.2) with ⟨_, he⟩ | ⟨hnin, he⟩
    · rw [he] at h
      rcases ih st b h with h1 | ⟨p', hp', h2⟩
      · exact Or.inl h1
      · exact Or.inr ⟨p', List.mem_cons_of_mem _ hp', h2⟩
    · rw [he] at h
      rcases ih _ b h with h1 | ⟨p', hp', h2, h3⟩
      · rcases List.mem_append.mp h1 with h1 | h1
        · exact Or.inl h1
        · simp only [List.mem_singleton] at h1
          subst h1
          exact Or.inr ⟨p, List.mem_cons_self _ _, rfl, hnin⟩
      · refine Or.inr ⟨p', List.mem_cons_of_mem _ hp', h2, ?_⟩
        intro hmem2
        exact h3 (List.mem_cons_of_mem _ hmem2)

theorem bridgeFoldOuter_sound (atoms : List Atom) (bonds : List Bond)
    (hidden : List String) :
    ∀ (l : List Nat) (st : BState) (b : Bond),
      b ∈ (l.foldl (bridgePass atoms bonds hidden) st).1 →
      b ∈ st.1 ∨ ∃ idx, idx ∈ l ∧ (getAtom atoms idx).symbol.toUpperCase ∈ hidden ∧
        ∃ p ∈ pairsOf (partnersOf atoms bonds hidden idx),
          b = mkBridge p.1 p.2 ∧ pairKey b ∉ st.2 := by
  intro l
  induction l with
  | nil => intro st b h; exact Or.inl h
  | cons i0 rest ih =>
    intro st b h
    simp only [List.foldl_cons] at h
    rcases ih _ b h with h1 | ⟨idx, hidx, hhid, p, hp, hb, hnin⟩
    · by_cases hm : (getAtom atoms i0).symbol.toUpperCase ∈ hidden
      · by_cases hl : (partnersOf atoms bonds hidden i0).length < 2
        · have hpass : bridgePass atoms bonds hidden st i0 = st := by
            unfold bridgePass; simp [hm, hl]
          rw [hpass] at h1
          exact Or.inl h1
        · have hpass : bridgePass atoms bonds hidden st i0 =
              (pairsOf (partnersOf atoms bonds hidden i0)).foldl bridgeStep st := by
            unfold bridgePass; simp [hm, hl]
          rw [hpass] at h1
          rcases bridgeFold_sound _ st b h1 with h2 | ⟨p, hp, hb, hnin⟩
          · exact Or.inl h2
          · exact Or.inr ⟨i0, List.mem_cons_self _ _, hm, p, hp, hb, hnin⟩
      · have hpass : bridgePass atoms bonds hidden st i0 = st := by
          unfold bridgePass; simp [hm]
        rw [hpass] at h1
        exact Or.inl h1
    · refine Or.inr ⟨idx, List.mem_cons_of_mem _ hidx, hhid, p, hp, hb, ?_⟩
      intro h2
      exact hnin (bridgePass_seen_sub atoms bonds hidden st i0 h2)

theorem bridging_sound (atoms : List Atom) (bonds : List Bond)
    (hidden : List String) (b : Bond)
    (h : b ∈ addInferredBridgingBonds atoms bonds hidden) :
    b ∈ bonds ∨ ∃ idx, idx < atoms.length ∧
      (getAtom atoms idx).symbol.toUpperCase ∈ hidden ∧
      ∃ p ∈ pairsOf (partnersOf atoms bonds hidden idx),
        b = mkBridge p.1 p.2 ∧ pairKey b ∉ initSeen bonds := by
  unfold addInferredBridgingBonds at h
  rcases bridgeFoldOuter_sound atoms bonds hidden _ _ b h with
    h1 | ⟨idx, hidx, hhid, p, hp, hb, hnin⟩
  · exact Or.inl h1
  · exact Or.inr ⟨idx, List.mem_range.mp hidx, hhid, p, hp, hb, hnin⟩

/-! ## Frame corollaries -/

theorem inferCoordination_frame (atoms : List Atom) (bonds : List Bond)
    (o : CoordOpts) :
    ∃ app, inferCoordinationBonds atoms bonds o = bonds ++ app ∧
      (app.map pairKey).Nodup ∧ ∀ b ∈ app, pairKey b ∉ bonds.map pairKey := by
  have h : FrameInv bonds ((List.range atoms.length).foldl (metalPass atoms o)
      (bonds, initSeen bonds)) :=
    foldl_pres (fun st x h => metalPass_frame atoms o x h) _ _ (frame_init bonds)
  obtain ⟨_, app, happ, hnd, hnew⟩ := h
  exact ⟨app, happ, hnd, hnew⟩

theorem bridging_frame (atoms : List Atom) (bonds : List Bond)
    (hidden : List String) :
    ∃ app, addInferredBridgingBonds atoms bonds hidden = bonds ++ app ∧
      (app.map pairKey).Nodup ∧ ∀ b ∈ app, pairKey b ∉ bonds.map pairKey := by
  have h : FrameInv bonds ((List.range atoms.length).foldl
      (bridgePass atoms bonds hidden) (bonds, initSeen bonds)) :=
    foldl_pres (fun st x h => bridgePass_frame atoms bonds hidden x h) _ _ (frame_init bonds)
  obtain ⟨_, app, happ, hnd, hnew⟩ := h
  exact ⟨app, happ, hnd, hnew⟩

/-! ## Distinctness of the heavy-partner lists

When no two bonds of the list share the same unordered index pair, the heavy
partners of a hidden atom are pairwise distinct, so every emitted bridge pair
connects two different atoms. -/

theorem keyOf_comm (a b : Int) : keyOf a b = keyOf b a := by
  unfold keyOf; rw [min_comm, max_comm]

theorem filter_flatMap {α β : Type} (l : List α) (f : α → List β) (p : β → Bool) :
    (l.flatMap f).filter p = l.flatMap (fun a => (f a).filter p) := by
  induction l with
  | nil => rfl
  | cons x xs ih => simp only [List.flatMap_cons, List.filter_append, ih]

theorem adjContrib_mem {atoms : List Atom} {k : Int} {b : Bond} {x : Int}
    (h : x ∈ adjContrib atoms k b) : pairKey b = keyOf k x := by
  unfold adjContrib at h
  by_cases hg : inRangeIdx atoms b.beginAtomIdx ∧ inRangeIdx atoms b.endAtomIdx
  · rw [if_pos hg] at h
    rcases List.mem_append.mp h with h | h
    · by_cases h1 : b.beginAtomIdx = k
      · rw [if_pos h1] at h
        simp only [List.mem_singleton] at h
        subst h
        unfold pairKey
        rw [h1]
      · rw [if_neg h1] at h
        exact absurd h (List.not_mem_nil _)
    · by_cases h2 : b.endAtomIdx = k
      · rw [if_pos h2] at h
        simp only [List.mem_singleton] at h
        subst h
        unfold pairKey
        rw [h2, keyOf_comm]
      · rw [if_neg h2] at h
        exact absurd h (List.not_mem_nil _)
  · rw [if_neg hg] at h
    exact absurd h (List.not_mem_nil _)

theorem adjContrib_filter_nodup (atoms : List Atom) (hidden : List String)
    (idx : Nat) (hhid : (getAtom atoms idx).symbol.toUpperCase ∈ hidden) (b : Bond) :
    ((adjContrib atoms ((idx : Int) + 1) b).filter
      (fun p => decide (isHeavy hidden (getAtom atoms (p - 1).toNat).symbol))).Nodup := by
  have hidxval : (((idx : Int) + 1) - 1).toNat = idx := by omega
  have hpk : (fun p => decide (isHeavy hidden (getAtom atoms (p - 1).toNat).symbol))
      ((idx : Int) + 1) = false := by
    simp only [hidxval]
    exact decide_eq_false (fun hh => hh.2 hhid)
  unfold adjContrib
  by_cases hg : inRangeIdx atoms b.beginAtomIdx ∧ inRangeIdx atoms b.endAtomIdx
  · rw [if_pos hg]
    by_cases h1 : b.beginAtomIdx = (idx : Int) + 1 <;>
      by_cases h2 : b.endAtomIdx = (idx : Int) + 1
    · rw [if_pos h1, if_pos h2, h1, h2]
      simp only [List.filter_append, List.filter_cons, List.filter_nil, hpk]
      simp
    · rw [if_pos h1, if_neg h2]
      exact List.Nodup.filter _ (by simp)
    · rw [if_neg h1, if_pos h2]
      exact List.Nodup.filter _ (by simp)
    · rw [if_neg h1, if_neg h2]
      simp
  · rw [if_neg hg]
    simp

theorem partners_nodup (atoms : List Atom) (hidden : List String) (idx : Nat)
    (hhid : (getAtom atoms idx).symbol.toUpperCase ∈ hidden) :
    ∀ (bonds : List Bond), (bonds.map pairKey).Nodup →
      (partnersOf atoms bonds hidden idx).Nodup := by
  have key : ∀ bonds : List Bond, partnersOf atoms bonds hidden idx =
      bonds.flatMap (fun b => (adjContrib atoms ((idx : Int) + 1) b).filter
        (fun p => decide (isHeavy hidden (getAtom atoms (p - 1).toNat).symbol))) := by
    intro bonds
    unfold partnersOf adjOf
    exact filter_flatMap bonds _ _
  intro bonds
  rw [key]
  induction bonds with
  | nil => intro _; simp
  | cons b rest ih =>
    intro hnd
    rw [List.map_cons, List.nodup_cons] at hnd
    rw [List.flatMap_cons, List.nodup_append]
    refine ⟨adjContrib_filter_nodup atoms hidden idx hhid b, ih hnd.2, ?_⟩
    intro x hx hx'
    rcases List.mem_flatMap.mp hx' with ⟨b', hb', hxb'⟩
    have h1 : pairKey b = keyOf ((idx : Int) + 1) x :=
      adjContrib_mem (List.mem_of_mem_filter hx)
    have h2 : pairKey b' = keyOf ((idx : Int) + 1) x :=
      adjContrib_mem (List.mem_of_mem_filter hxb')
    exact hnd.1 (List.mem_map.mpr ⟨b', hb', h2.trans h1.symm⟩)

theorem pairsOf_mem_ne {l : List Int} (hnd : l.Nodup) {p : Int × Int}
    (hp : p ∈ pairsOf l) : p.1 ≠ p.2 := by
  induction l with
  | nil => exact absurd hp (by simp [pairsOf])
  | cons x xs ih =>
    rw [List.nodup_cons] at hnd
    rw [show pairsOf (x :: xs) = xs.map (fun y => (x, y)) ++ pairsOf xs from rfl] at hp
    rcases List.mem_append.mp hp with h | h
    · rcases List.mem_map.mp h with ⟨y, hy, hyp⟩
      subst hyp
      intro he
      simp only at he
      exact hnd.1 (he ▸ hy)
    · exact ih hnd.2 h

/-! ## Properties of the text normalizer -/

theorem convertCR_no_cr (l : Str) : '\r' ∉ convertCR l := by
  induction l using convertCR.induct with
  | case1 rest ih => rw [convertCR]; simp [ih]
  | case2 rest h ih => rw [convertCR]; simp [ih]; exact h
  | case3 c rest h hne ih =>
    rw [convertCR]
    · intro hmem
      rcases List.mem_cons.mp hmem with he | hm
      · exact hne he.symm
      · exact ih hm
    · exact h
    · exact hne
  | case4 => rw [convertCR]; simp

theorem convertCR_eq_self (l : Str) (hl : '\r' ∉ l) : convertCR l = l := by
  induction l using convertCR.induct with
  | case1 rest ih => exact absurd (List.mem_cons_self _ _) hl
  | case2 rest h ih => exact absurd (List.mem_cons_self _ _) hl
  | case3 c rest h hne ih =>
    rw [convertCR]
    · rw [ih (fun hm => hl (List.mem_cons_of_mem _ hm))]
    · exact h
    · exact hne
  | case4 => rw [convertCR]

theorem convertCR_memBOM (l : Str) (h : bomChar ∈ convertCR l) : bomChar ∈ l := by
  induction l using convertCR.induct with
  | case1 rest ih =>
    rw [convertCR] at h
    rcases List.mem_cons.mp h with he | hm
    · exact absurd he (by decide)
    · exact List.mem_cons_of_mem _ (List.mem_cons_of_mem _ (ih hm))
  | case2 rest h2 ih =>
    rw [convertCR] at h
    · rcases List.mem_cons.mp h with he | hm
      · exact absurd he (by decide)
      · exact List.mem_cons_of_mem _ (ih hm)
    · exact h2
  | case3 c rest h2 hne ih =>
    rw [convertCR] at h
    · rcases List.mem_cons.mp h with he | hm
      · exact he ▸ List.mem_cons_self _ _
      · exact List.mem_cons_of_mem _ (ih hm)
    · exact h2
    · exact hne
  | case4 =>
    rw [convertCR] at h
    exact absurd h (List.not_mem_nil _)

theorem convertCR_cons_of_ne (c : Char) (rest : Str) (hc : c ≠ '\r') :
    convertCR (c :: rest) = c :: convertCR rest := by
  rw [convertCR]
  · intro rest1 he
    exact absurd he hc
  · exact hc

theorem stripBOM_cons (c : Char) (rest : Str) :
    stripBOM (c :: rest) = if c = bomChar then rest else c :: rest := rfl

theorem stripBOM_of_not_mem (l : Str) (h : bomChar ∉ l) : stripBOM l = l := by
  cases l with
  | nil => rfl
  | cons c rest =>
    rw [stripBOM_cons, if_neg]
    intro he
    exact h (he ▸ List.mem_cons_self _ _)

theorem stripBOM_sub (l : Str) : ∀ x, x ∈ stripBOM l → x ∈ l := by
  cases l with
  | nil => intro x h; exact h
  | cons c rest =>
    intro x h
    rw [stripBOM_cons] at h
    by_cases hc : c = bomChar
    · rw [if_pos hc] at h
      exact List.mem_cons_of_mem _ h
    · rw [if_neg hc] at h
      exact h

theorem dropIndent_cons (c : Char) (rest : Str) :
    dropIndent (c :: rest) = if c = ' ' || c = '\t' then dropIndent rest else c :: rest := rfl

theorem dropIndent_sub (l : Str) : ∀ x, x ∈ dropIndent l → x ∈ l := by
  induction l with
  | nil => intro x h; exact h
  | cons c rest ih =>
    intro x h
    rw [dropIndent_cons] at h
    by_cases hc : (c = ' ' || c = '\t') = true
    · rw [if_pos hc] at h
      exact List.mem_cons_of_mem _ (ih x h)
    · rw [if_neg hc] at h
      exact h

theorem dropIndent_length_le (l : Str) : (dropIndent l).length ≤ l.length := by
  induction l with
  | nil => exact Nat.le_refl _
  | cons c rest ih =>
    rw [dropIndent_cons]
    by_cases hc : (c = ' ' || c = '\t') = true
    · rw [if_pos hc]
      exact Nat.le_trans ih (by simp)
    · rw [if_neg hc]

theorem tryBlankLine_sub {l r : Str} (h : tryBlankLine l = some r) :
    ∀ x, x ∈ r → x ∈ l := by
  intro x hx
  rcases hd : dropIndent l with _ | ⟨c, rest⟩
  · have hte : tryBlankLine l = none := by unfold tryBlankLine; rw [hd]
    rw [hte] at h
    exact absurd h (by simp)
  · have hte : tryBlankLine l = if c = '\n' then some rest else none := by
      unfold tryBlankLine; rw [hd]
    rw [hte] at h
    by_cases hc : c = '\n'
    · rw [if_pos hc] at h
      simp only [Option.some.injEq] at h
      subst h
      exact dropIndent_sub l x (hd ▸ List.mem_cons_of_mem _ hx)
    · rw [if_neg hc] at h
      exact absurd h (by simp)

theorem tryBlankLine_length {l r : Str} (h : tryBlankLine l = some r) :
    r.length < l.length := by
  rcases hd : dropIndent l with _ | ⟨c, rest⟩
  · have hte : tryBlankLine l = none := by unfold tryBlankLine; rw [hd]
    rw [hte] at h
    exact absurd h (by simp)
  · have hte : tryBlankLine l = if c = '\n' then some rest else none := by
      unfold tryBlankLine; rw [hd]
    rw [hte] at h
    by_cases hc : c = '\n'
    · rw [if_pos hc] at h
      simp only [Option.some.injEq] at h
      subst h
      have h1 : (dropIndent l).length ≤ l.length := dropIndent_length_le l
      rw [hd] at h1
      simp only [List.length_cons] at h1
      omega
    · rw [if_neg hc] at h
      exact absurd h (by simp)

theorem dropBlankAux_sub : ∀ (n : Nat) (l : Str) (x : Char),
    x ∈ dropBlankAux n l → x ∈ l := by
  intro n
  induction n with
  | zero => intro l x h; exact h
  | succ n ih =>
    intro l x h
    unfold dropBlankAux at h
    rcases ht : tryBlankLine l with _ | r
    · rw [ht] at h; exact h
    · rw [ht] at h
      exact tryBlankLine_sub ht x (ih r x h)

theorem dropBlankAux_tryNone : ∀ (n : Nat) (l : Str), l.length ≤ n →
    tryBlankLine (dropBlankAux n l) = none := by
  intro n
  induction n with
  | zero =>
    intro l hl
    have : l = [] := List.length_eq_zero.mp (Nat.le_zero.mp hl)
    subst this
    rfl
  | succ n ih =>
    intro l hl
    unfold dropBlankAux
    rcases ht : tryBlankLine l with _ | r
    · exact ht
    · have := tryBlankLine_length ht
      exact ih r (by omega)

theorem dropBlankLines_of_tryNone {l : Str} (h : tryBlankLine l = none) :
    dropBlankLines l = l := by
  unfold dropBlankLines
  cases hn : l.length with
  | zero => rfl
  | succ n =>
    unfold dropBlankAux
    rw [h]

theorem dropBlankLines_idem (l : Str) :
    dropBlankLines (dropBlankLines l) = dropBlankLines l :=
  dropBlankLines_of_tryNone (dropBlankAux_tryNone l.length l (Nat.le_refl _))

theorem dropBlankLines_sub (l : Str) : ∀ x, x ∈ dropBlankLines l → x ∈ l :=
  fun x h => dropBlankAux_sub l.length l x h

/-- Idempotence of `normalizeSDFText` for inputs without a byte-order-mark
beyond the first character (the core of the idempotence argument; the
general statement fails, see the corresponding claim). -/
theorem normalizeSDFText_idem_aux (l : Str) (h : bomChar ∉ l.drop 1) :
    normalizeSDFText (normalizeSDFText l) = normalizeSDFText l := by
  have hbody : bomChar ∉ normalizeSDFText l := by
    unfold normalizeSDFText
    cases l with
    | nil =>
      intro hmem
      exact absurd (stripBOM_sub _ _ (dropBlankLines_sub _ _ hmem)) (by simp [convertCR])
    | cons c rest =>
      simp only [List.drop_one, List.tail_cons] at h
      intro hmem
      have h1 : bomChar ∈ stripBOM (convertCR (c :: rest)) := dropBlankLines_sub _ _ hmem
      by_cases hc : c = bomChar
      · subst hc
        rw [convertCR_cons_of_ne _ _ (by decide)] at h1
        rw [stripBOM_cons, if_pos rfl] at h1
        exact h (convertCR_memBOM rest h1)
      · have h2 : bomChar ∈ convertCR (c :: rest) := stripBOM_sub _ _ h1
        have h3 : bomChar ∈ c :: rest := convertCR_memBOM _ h2
        rcases List.mem_cons.mp h3 with he | hm
        · exact hc he.symm
        · exact h hm
  have hnocr : '\r' ∉ normalizeSDFText l := by
    unfold normalizeSDFText
    intro hmem
    exact convertCR_no_cr l (stripBOM_sub _ _ (dropBlankLines_sub _ _ hmem))
  rw [show normalizeSDFText (normalizeSDFText l) =
        dropBlankLines (stripBOM (convertCR (normalizeSDFText l))) from rfl]
  rw [convertCR_eq_self _ hnocr, stripBOM_of_not_mem _ hbody]
  rw [show normalizeSDFText l = dropBlankLines (stripBOM (convertCR l)) from rfl]
  exact dropBlankLines_idem _

/-! ## Charge-application lemmas -/

theorem getAtom_set_self {atoms : List Atom} {i : Nat} (a : Atom) (h : i < atoms.length) :
    getAtom (atoms.set i a) i = a := by
  unfold getAtom
  simp [List.getD, List.getElem?_set_self', h]

theorem getAtom_set_ne {atoms : List Atom} {i j : Nat} (a : Atom) (h : i ≠ j) :
    getAtom (atoms.set i a) j = getAtom atoms j := by
  unfold getAtom
  simp [List.getD, List.getElem?_set_ne h]

theorem applyChargePair_length (atoms : List Atom) (e : Int × Int) :
    (applyChargePair atoms e).length = atoms.length := by
  unfold applyChargePair
  by_cases h : 1 ≤ e.1 ∧ e.1 ≤ (atoms.length : Int)
  · rw [if_pos h]
    exact List.length_set _ _ _
  · rw [if_neg h]

theorem applyChargeEntries_length (atoms : List Atom) :
    ∀ es : List (Int × Int), (applyChargeEntries atoms es).length = atoms.length := by
  suffices h : ∀ (es : List (Int × Int)) (ats : List Atom),
      (applyChargeEntries ats es).length = ats.length by
    intro es; exact h es atoms
  intro es
  induction es with
  | nil => intro ats; rfl
  | cons e rest ih =>
    intro ats
    show (applyChargeEntries (applyChargePair ats e) rest).length = ats.length
    rw [ih, applyChargePair_length]

theorem applyChargePair_charge_pres {atoms : List Atom} {e : Int × Int} {i : Nat}
    (h : e.1 ≠ (i : Int) + 1) :
    getAtom (applyChargePair atoms e) i = getAtom atoms i := by
  unfold applyChargePair
  by_cases hg : 1 ≤ e.1 ∧ e.1 ≤ (atoms.length : Int)
  · rw [if_pos hg]
    refine getAtom_set_ne _ ?_
    omega
  · rw [if_neg hg]

theorem applyChargeEntries_charge_pres {i : Nat} :
    ∀ (es : List (Int × Int)) (atoms : List Atom), (∀ e ∈ es, e.1 ≠ (i : Int) + 1) →
      getAtom (applyChargeEntries atoms es) i = getAtom atoms i := by
  intro es
  induction es with
  | nil => intro atoms _; rfl
  | cons e rest ih =>
    intro atoms hall
    show getAtom (applyChargeEntries (applyChargePair atoms e) rest) i = getAtom atoms i
    rw [ih _ (fun e' he' => hall e' (List.mem_cons_of_mem _ he')),
      applyChargePair_charge_pres (hall e (List.mem_cons_self _ _))]

/-- The last directive assignment targeting an atom determines its final
charge, whatever charge the atom carried before (in particular one set by an
inline atom-line code). -/
theorem applyChargeEntries_last (atoms : List Atom) (pre post : List (Int × Int))
    (i : Nat) (v : Int) (hi : i < atoms.length)
    (hpost : ∀ e ∈ post, e.1 ≠ (i : Int) + 1) :
    (getAtom (applyChargeEntries atoms (pre ++ ((i : Int) + 1, v) :: post)) i).charge
      = some v := by
  unfold applyChargeEntries
  rw [List.foldl_append, List.foldl_cons]
  show (getAtom (applyChargeEntries
    (applyChargePair (applyChargeEntries atoms pre) ((i : Int) + 1, v)) post) i).charge = some v
  rw [applyChargeEntries_charge_pres post _ hpost]
  have hlen : (applyChargeEntries atoms pre).length = atoms.length :=
    applyChargeEntries_length atoms pre
  unfold applyChargePair
  rw [if_pos (by constructor <;> omega)]
  have hidx : ((((i : Int) + 1) - 1)).toNat = i := by omega
  rw [hidx, getAtom_set_self _ (by omega)]

/-! ## Trigger-equivalence lemmas -/

theorem layout3d_iff (o : LoadOpts) (atoms : List Atom) (hauto : o.layout = "auto") :
    layoutModeOf o atoms = "3d" ↔ (1 / 10000 : ℚ) ≤ maxAbsZ atoms := by
  unfold layoutModeOf
  rw [hauto, if_pos rfl]
  by_cases hz : maxAbsZ atoms < 1 / 10000
  · rw [if_pos hz]
    constructor
    · intro h; exact absurd h (by decide)
    · intro h; exact absurd hz (not_lt.mpr h)
  · rw [if_neg hz]
    exact ⟨fun _ => not_lt.mp hz, fun _ => rfl⟩

theorem metalUnbonded_iff (o : LoadOpts) (atoms : List Atom) (bonds : List Bond) :
    metalUnbondedB o atoms bonds = true ↔
      (cmFinal o ≠ "none" ∧ ∃ i, i < atoms.length ∧
        symbolUp atoms i ∈ metalSetOf (cmFinal o) ∧
        ∀ b ∈ bonds, b.beginAtomIdx ≠ (i : Int) + 1 ∧ b.endAtomIdx ≠ (i : Int) + 1) := by
  unfold metalUnbondedB
  simp only [Bool.and_eq_true, decide_eq_true_eq, List.any_eq_true, List.mem_range,
    List.all_eq_true, ne_eq]

theorem coordinationRuns_iff (o : LoadOpts) (atoms : List Atom) (bonds : List Bond) :
    coordinationRuns o atoms bonds = true ↔
      ((layoutModeOf o atoms = "3d" ∨ metalUnbondedB o atoms bonds = true) ∧
        cmFinal o ≠ "none") := by
  unfold coordinationRuns
  constructor
  · intro h
    split at h
    · split at h
      · rename_i hor hcm
        exact ⟨by simpa using hor, hcm⟩
      · exact absurd h (by simp)
    · exact absurd h (by simp)
  · rintro ⟨hor, hcm⟩
    rw [if_pos (by simpa using hor), if_pos hcm]

/-! ## The claims

Each claim about the program is settled by one theorem below.  Concrete
evaluations run the embedded code by kernel reduction (`decide`); the four
`Rat` operations marked irreducible upstream are made semireducible so the
evaluator can unfold them. -/

attribute [local semireducible] Rat.add Rat.mul Rat.inv Rat.sub

/-- C1: the claim says a V2000 bond line that writes its two atom indices in
concatenated fixed 3-column fields (the literal line `" 54100  1  0  0  0  0"`
of a 100-atom record) parses to one bond joining atoms 54 and 100.  The
embedded `simpleParse` instead splits the bond line on whitespace: on `c1Text`
it produces the single bond `{beginAtomIdx: 54100, endAtomIdx: 1, order: 1}`,
and no bond with the unordered pair `{54, 100}` exists in the result. -/
theorem claim_c1_code_eval :
    (simpleParse c1Text).map (fun m => (m.atoms.length, m.bonds)) =
      some (100, [⟨54100, 1, 1, 0, false, none⟩]) ∧
    (simpleParse c1Text).map (fun m => decide (hasPair m.bonds 54 100)) = some false :=
  ⟨by decide, by decide⟩

/-- C2: the claim says every bond of the final chemistry model satisfies
`0 ≤ beginIndex, endIndex < atomCount`.  On the 3-atom record `c2Text` whose
second bond line references atom 99, the chemistry model built by `loadSDF`
(with default options) exposes that bond as `{beginAtomIndex: 0,
endAtomIndex: 98}` with `atomCount = 3`: out-of-range bonds are filtered on
the render path but not from `chemistry.bonds`. -/
theorem claim_c2_code_eval :
    (parseV2000WithCharges c2Text).map (chemistryModel {}) =
      some ([⟨0, 0, 1, 1, 1, false, false, false, "molfile", none⟩,
             ⟨1, 0, 98, 1, 1, false, false, false, "molfile", none⟩], 3) ∧
    (parseV2000WithCharges c2Text).map (fun m => decide (∀ cb ∈ (chemistryModel {} m).1,
      0 ≤ cb.beginAtomIndex ∧ cb.beginAtomIndex < ((chemistryModel {} m).2 : Int) ∧
      0 ≤ cb.endAtomIndex ∧ cb.endAtomIndex < ((chemistryModel {} m).2 : Int))) =
        some false :=
  ⟨by decide, by decide⟩

/-- C3: under `suppressOppositeChargeCoordination = true` (the default),
coordination inference never adds a bond between two atoms with explicit
charges of opposite signs — every added bond is an inferred coordination bond
`mkCoord mi li` with `¬ oppCharge atoms mi li`.  Concretely, the Na(+1)/Cl(−1)
pair 2.5 units apart (3-D layout, no explicit bonds) yields no inferred bond
under the default policy, and setting the suppression flag to `false` makes
exactly that bond be inferred. -/
theorem claim_c3 :
    (∀ (atoms : List Atom) (bonds : List Bond) (o : CoordOpts), o.suppress = true →
      ∀ b ∈ inferCoordinationBonds atoms bonds o, b ∉ bonds →
        ∃ mi li, b = mkCoord mi li ∧ ¬ oppCharge atoms mi li) ∧
    inferCoordinationBonds naclAtoms []
      ⟨DEFAULT_METALS, DEFAULT_CUTOFF, DEFAULT_REL_FACTOR, true⟩ = [] ∧
    inferCoordinationBonds naclAtoms []
      ⟨DEFAULT_METALS, DEFAULT_CUTOFF, DEFAULT_REL_FACTOR, false⟩ = [mkCoord 0 1] := by
  refine ⟨?_, by decide, by decide⟩
  intro atoms bonds o hsup b hb hnotin
  rcases inferCoordination_sound atoms bonds o b hb with
    h | ⟨mi, li, q, _, _, _, _, hs, hb2, _⟩
  · exact absurd h hnotin
  · exact ⟨mi, li, hb2, fun hopc => hs ⟨hsup, hopc⟩⟩

/-- C4: bridging-bond inference tolerates malformed bond records: a bond with
an out-of-range atom reference contributes nothing to the adjacency build
(filtering such bonds away leaves every adjacency bucket unchanged), the
inference is total and always returns the input bonds plus an appended
suffix, and parsing plus inference of the repository's own malformed fixture
(`c2Text`, bond `1 99` with 3 atoms) completes and returns a result. -/
theorem claim_c4 :
    (∀ (atoms : List Atom) (bonds : List Bond) (hidden : List String),
      (∀ k : Int, adjOf atoms bonds k =
        adjOf atoms (bonds.filter (fun b =>
          decide (inRangeIdx atoms b.beginAtomIdx ∧ inRangeIdx atoms b.endAtomIdx))) k) ∧
      ∃ app, addInferredBridgingBonds atoms bonds hidden = bonds ++ app) ∧
    (parseV2000WithCharges c2Text).map
        (fun m => addInferredBridgingBonds m.atoms m.bonds ["H"]) =
      some [⟨1, 2, 1, 0, false, none⟩, ⟨1, 99, 1, 0, false, none⟩] := by
  refine ⟨?_, by decide⟩
  intro atoms bonds hidden
  constructor
  · intro k
    unfold adjOf
    induction bonds with
    | nil => rfl
    | cons b rest ih =>
      rw [List.flatMap_cons, List.filter_cons]
      by_cases hg : inRangeIdx atoms b.beginAtomIdx ∧ inRangeIdx atoms b.endAtomIdx
      · rw [if_pos (by simpa using hg), List.flatMap_cons, ih]
      · have hc : adjContrib atoms k b = [] := by unfold adjContrib; rw [if_neg hg]
        rw [hc, if_neg (by simpa using hg), List.nil_append, ih]
  · obtain ⟨app, happ, _, _⟩ := bridging_frame atoms bonds hidden
    exact ⟨app, happ⟩

/-- C5 counterexample: the claim says coordination inference adds a bond to
*exactly* those candidates within the adaptive threshold
`max(cutoff, dMin·relFactor)`.  On `feO` — a metal Fe(+1) with the single
candidate O(−1) at distance 2.5, within the threshold — the default policy
(`suppressOppositeChargeCoordination = true`) adds no bond at all: the claim
omits the opposite-charge suppression proviso. -/
theorem claim_c5_counterexample :
    symbolUp feO 0 ∈ DEFAULT_METALS ∧
    (1, quad (getAtom feO 0) (getAtom feO 1)) ∈ candDists feO DEFAULT_CUTOFF 0 ∧
    withinThr (quad (getAtom feO 0) (getAtom feO 1))
      (minQuad (candDists feO DEFAULT_CUTOFF 0)) DEFAULT_CUTOFF DEFAULT_REL_FACTOR ∧
    inferCoordinationBonds feO []
      ⟨DEFAULT_METALS, DEFAULT_CUTOFF, DEFAULT_REL_FACTOR, true⟩ = [] :=
  ⟨by decide, by decide, by decide, by decide⟩

/-- C5 (amended): with the suppression proviso added, the adaptive-threshold
characterization holds.  Soundness: every bond the inference adds is a
coordination bond of a metal `mi` to a candidate `li` whose squared distance
passes `withinThr` (the squared form of `d ≤ max(cutoff, dMin·relFactor)`),
not suppressed by the charge policy, and whose pair was not already bonded.
Completeness: every such non-suppressed in-threshold candidate pair is
connected in the output.  Candidates are never hydrogens and never the metal
itself.  Concretely, a lone Fe 4.0 units from a lone C gets an inferred bond
with `relFactor = 1.4` but not with `relFactor = 0.5`. -/
theorem claim_c5_amended :
    (∀ (atoms : List Atom) (bonds : List Bond) (o : CoordOpts) (b : Bond),
      b ∈ inferCoordinationBonds atoms bonds o → b ∉ bonds →
      ∃ mi li q, mi < atoms.length ∧ symbolUp atoms mi ∈ o.metals ∧
        (li, q) ∈ candDists atoms o.cutoff mi ∧
        withinThr q (minQuad (candDists atoms o.cutoff mi)) o.cutoff o.relFactor ∧
        ¬(o.suppress = true ∧ oppCharge atoms mi li) ∧ b = mkCoord mi li ∧
        ¬ hasPair bonds ((mi : Int) + 1) ((li : Int) + 1)) ∧
    (∀ (atoms : List Atom) (bonds : List Bond) (o : CoordOpts) (mi li : Nat) (q : ℚ),
      mi < atoms.length → symbolUp atoms mi ∈ o.metals →
      (li, q) ∈ candDists atoms o.cutoff mi →
      withinThr q (minQuad (candDists atoms o.cutoff mi)) o.cutoff o.relFactor →
      ¬(o.suppress = true ∧ oppCharge atoms mi li) →
      hasPair (inferCoordinationBonds atoms bonds o) ((mi : Int) + 1) ((li : Int) + 1)) ∧
    (∀ (atoms : List Atom) (cutoff : ℚ) (mi li : Nat) (q : ℚ),
      (li, q) ∈ candDists atoms cutoff mi → symbolUp atoms li ≠ "H" ∧ li ≠ mi) ∧
    inferCoordinationBonds feC []
      ⟨DEFAULT_METALS, DEFAULT_CUTOFF, 7 / 5, true⟩ = [mkCoord 0 1] ∧
    inferCoordinationBonds feC []
      ⟨DEFAULT_METALS, DEFAULT_CUTOFF, 1 / 2, true⟩ = [] := by
  refine ⟨?_, ?_, ?_, by decide, by decide⟩
  · intro atoms bonds o b hb hnotin
    rcases inferCoordination_sound atoms bonds o b hb with
      h | ⟨mi, li, q, h1, h2, h3, h4, h5, h6, h7⟩
    · exact absurd h hnotin
    · exact ⟨mi, li, q, h1, h2, h3, h4, h5, h6, h7⟩
  · intro atoms bonds o mi li q h1 h2 h3 h4 h5
    exact inferCoordination_complete atoms bonds o mi li q h1 h2 h3 h4 h5
  · intro atoms cutoff mi li q hc
    obtain ⟨hne, hh, _, _⟩ := candDists_mem hc
    exact ⟨hh, hne⟩

/-- C6: when an atom's charge is set both by an inline atom-line code and by
an explicit charge directive for the same atom, the directive wins
(last-applied-wins): the last directive entry targeting atom `i` determines
its final charge whatever the atom carried before.  Concretely: inline code 5
(−1) with a `M  CHG` directive assigning +2 yields +2 (and −1 without the
directive), and the V3000 inline `CHG=-1` overridden by a `M  V30 CHG`
directive assigning +2 also yields +2. -/
theorem claim_c6 :
    (∀ (atoms : List Atom) (pre post : List (Int × Int)) (i : Nat) (v : Int),
      i < atoms.length → (∀ e ∈ post, e.1 ≠ (i : Int) + 1) →
      (getAtom (applyChargeEntries atoms (pre ++ ((i : Int) + 1, v) :: post)) i).charge
        = some v) ∧
    (parseV2000WithCharges c6Text).map (fun m => m.atoms.map Atom.charge)
      = some [some 2] ∧
    (parseV2000WithCharges c6TextNoDir).map (fun m => m.atoms.map Atom.charge)
      = some [some (-1)] ∧
    (parseV3000 c6V3Text).map (fun m => m.atoms.map Atom.charge) = some [some 2] :=
  ⟨fun atoms pre post i v hi hpost => applyChargeEntries_last atoms pre post i v hi hpost,
   by decide, by decide, by decide⟩

/-- C7: under the automatic layout policy, coordination inference runs iff
the coordination policy is not disabled and either the layout is classified
3-D (maximum absolute Z coordinate at least the epsilon `1e-4`; below it the
layout is classified 2-D) or some atom of the metal set takes part in no
explicit bond — the guard `coordinationRuns` of the code coincides with the
trigger predicate `specTrigger` written from the specification. -/
theorem claim_c7 (o : LoadOpts) (atoms : List Atom) (bonds : List Bond)
    (hauto : o.layout = "auto") :
    coordinationRuns o atoms bonds = true ↔ specTrigger o atoms bonds := by
  rw [coordinationRuns_iff, metalUnbonded_iff]
  unfold specTrigger
  rw [layout3d_iff o atoms hauto]
  constructor
  · rintro ⟨h1 | ⟨hcm, h2⟩, hcm2⟩
    · exact ⟨hcm2, Or.inl h1⟩
    · exact ⟨hcm, Or.inr h2⟩
  · rintro ⟨hcm, h1 | h2⟩
    · exact ⟨Or.inl h1, hcm⟩
    · exact ⟨Or.inr ⟨hcm, h2⟩, hcm⟩

/-- C7 witness: the trigger equivalence at a concrete input (default options,
the lone Fe/C pair, no bonds). -/
theorem claim_c7_witness :
    ({} : LoadOpts).layout = "auto" ∧
    (coordinationRuns {} feC [] = true ↔ specTrigger {} feC []) :=
  ⟨rfl, claim_c7 {} feC [] rfl⟩

/-- C8: a raw bond order outside 1..3 (including 0, 4, 8 and 9) is normalized
to single (order 1) on the render path, an order within 1..3 is kept, and the
raw value is preserved as `originalOrder` both on the chemistry-model record
and in the per-bond render metadata. -/
theorem claim_c8 :
    (∀ raw : Int, ((raw < 1 ∨ raw > 3) → renderOrder raw = 1) ∧
      (1 ≤ raw → raw ≤ 3 → renderOrder raw = raw)) ∧
    renderOrder 0 = 1 ∧ renderOrder 4 = 1 ∧ renderOrder 8 = 1 ∧ renderOrder 9 = 1 ∧
    (∀ (i : Nat) (b : Bond), (chemBondOf i b).originalOrder = b.order ∧
      (renderBondMeta b).2 = b.order) := by
  refine ⟨?_, by decide, by decide, by decide, by decide, fun i b => ⟨rfl, rfl⟩⟩
  intro raw
  constructor
  · intro h
    unfold renderOrder
    rw [if_pos h]
  · intro h1 h2
    unfold renderOrder
    rw [if_neg (by omega : ¬(raw < 1 ∨ raw > 3))]

/-- C9 counterexample: the normalizer is not idempotent on arbitrary input.
On the two-character input `BOM BOM`, one pass strips only the leading
byte-order-mark and leaves the second as the new first character, which the
next pass strips in turn. -/
theorem claim_c9_counterexample :
    normalizeSDFText (normalizeSDFText [bomChar, bomChar]) ≠
      normalizeSDFText [bomChar, bomChar] := by decide

/-- C9 (amended): the normalizer is idempotent on every input whose
byte-order-mark occurs at most as the very first character — in particular on
all ordinary SDF text with CRLF line endings, one leading byte-order-mark and
leading blank lines. -/
theorem claim_c9_amended (l : Str) (h : bomChar ∉ l.drop 1) :
    normalizeSDFText (normalizeSDFText l) = normalizeSDFText l :=
  normalizeSDFText_idem_aux l h

/-- C9 witness: idempotence at a concrete input with a leading
byte-order-mark, CRLF line endings and leading blank lines. -/
theorem claim_c9_witness :
    bomChar ∉ ("\uFEFF\r\n\r\n  \n ab".toList).drop 1 ∧
    normalizeSDFText (normalizeSDFText "\uFEFF\r\n\r\n  \n ab".toList) =
      normalizeSDFText "\uFEFF\r\n\r\n  \n ab".toList :=
  ⟨by decide, claim_c9_amended _ (by decide)⟩

/-- C10 counterexample: with a duplicated input bond the inference engines
can append a self-bond.  On a B–H pair whose `1–2` bond appears twice, the
hydrogen's heavy-partner bucket holds boron twice, so bridging inference
appends the bridge bond `1–1` — `beginAtomIdx = endAtomIdx`, refuting the
claim's no-self-bond guarantee for arbitrary input bond lists. -/
theorem claim_c10_counterexample :
    addInferredBridgingBonds dupAtoms
      (inferCoordinationBonds dupAtoms dupBonds
        ⟨DEFAULT_METALS, DEFAULT_CUTOFF, DEFAULT_REL_FACTOR, true⟩) ["H"] =
      dupBonds ++ [mkBridge 1 1] ∧
    (mkBridge 1 1).beginAtomIdx = (mkBridge 1 1).endAtomIdx :=
  ⟨by decide, rfl⟩

/-- C10 (amended): when no two input bonds share the same unordered index
pair, running coordination inference followed by bridging inference only
appends: the input bonds are an unchanged prefix, every appended bond has
order 0 and joins two distinct atoms, the appended pairs are pairwise
distinct, and none duplicates an input pair. -/
theorem claim_c10_amended (atoms : List Atom) (bonds : List Bond) (o : CoordOpts)
    (hidden : List String) (hnd : (bonds.map pairKey).Nodup) :
    ∃ app,
      addInferredBridgingBonds atoms (inferCoordinationBonds atoms bonds o) hidden =
        bonds ++ app ∧
      (app.map pairKey).Nodup ∧
      (∀ b ∈ app, pairKey b ∉ bonds.map pairKey) ∧
      ∀ b ∈ app, b.order = 0 ∧ b.beginAtomIdx ≠ b.endAtomIdx := by
  obtain ⟨app1, h1, hnd1, hnew1⟩ := inferCoordination_frame atoms bonds o
  obtain ⟨app2, h2, hnd2, hnew2⟩ :=
    bridging_frame atoms (inferCoordinationBonds atoms bonds o) hidden
  have hb1nd : ((inferCoordinationBonds atoms bonds o).map pairKey).Nodup := by
    rw [h1, List.map_append, List.nodup_append]
    refine ⟨hnd, hnd1, ?_⟩
    intro k hk hk2
    rcases List.mem_map.mp hk2 with ⟨b, hb, hbk⟩
    exact hnew1 b hb (hbk ▸ hk)
  refine ⟨app1 ++ app2, ?_, ?_, ?_, ?_⟩
  · rw [h2, h1, List.append_assoc]
  · rw [List.map_append, List.nodup_append]
    refine ⟨hnd1, hnd2, ?_⟩
    intro k hk hk2
    rcases List.mem_map.mp hk2 with ⟨b, hb, hbk⟩
    refine hnew2 b hb ?_
    rw [h1, List.map_append, List.mem_append]
    exact Or.inr (hbk ▸ hk)
  · intro b hb
    rcases List.mem_append.mp hb with hb | hb
    · exact hnew1 b hb
    · intro hkmem
      refine hnew2 b hb ?_
      rw [h1, List.map_append, List.mem_append]
      exact Or.inl hkmem
  · intro b hb
    rcases List.mem_append.mp hb with hb | hb
    · have hbmem : b ∈ inferCoordinationBonds atoms bonds o := by
        rw [h1]; exact List.mem_append_right _ hb
      rcases inferCoordination_sound atoms bonds o b hbmem with
        hin | ⟨mi, li, q, _, _, hc, _, _, hbeq, _⟩
      · exact absurd (List.mem_map.mpr ⟨b, hin, rfl⟩) (hnew1 b hb)
      · obtain ⟨hne, _, _, _⟩ := candDists_mem hc
        subst hbeq
        refine ⟨rfl, ?_⟩
        show (mi : Int) + 1 ≠ (li : Int) + 1
        intro he
        exact hne (by omega)
    · have hbmem : b ∈ addInferredBridgingBonds atoms
          (inferCoordinationBonds atoms bonds o) hidden := by
        rw [h2]; exact List.mem_append_right _ hb
      rcases bridging_sound atoms _ hidden b hbmem with
        hin | ⟨idx, _, hhid, p, hp, hbeq, _⟩
      · exact absurd (List.mem_map.mpr ⟨b, hin, rfl⟩) (hnew2 b hb)
      · have hpnd := partners_nodup atoms hidden idx hhid _ hb1nd
        have hpn := pairsOf_mem_ne hpnd hp
        subst hbeq
        exact ⟨rfl, hpn⟩

/-- C10 witness: the amended frame property at a concrete input (a single
B–H bond, default engine options, hydrogens hidden). -/
theorem claim_c10_witness :
    (([⟨1, 2, 1, 0, false, none⟩] : List Bond).map pairKey).Nodup ∧
    ∃ app,
      addInferredBridgingBonds dupAtoms
          (inferCoordinationBonds dupAtoms [⟨1, 2, 1, 0, false, none⟩]
            ⟨DEFAULT_METALS, DEFAULT_CUTOFF, DEFAULT_REL_FACTOR, true⟩) ["H"] =
        [⟨1, 2, 1, 0, false, none⟩] ++ app ∧
      (app.map pairKey).Nodup ∧
      (∀ b ∈ app, pairKey b ∉ ([⟨1, 2, 1, 0, false, none⟩] : List Bond).map pairKey) ∧
      ∀ b ∈ app, b.order = 0 ∧ b.beginAtomIdx ≠ b.endAtomIdx :=
  ⟨by decide, claim_c10_amended dupAtoms [⟨1, 2, 1, 0, false, none⟩]
    ⟨DEFAULT_METALS, DEFAULT_CUTOFF, DEFAULT_REL_FACTOR, true⟩ ["H"] (by decide)⟩

end SDF
